import Mathlib

/-!
Verification development for the agent-rules engine (`src/core.ts`).

The engine is a pure data-transformation pipeline: path/text utilities,
source normalization, tree building over a flat map keyed by relative
posix path, recursive sorting of rule files and child folders, and
rendering to Markdown with heading-depth capping.

Modelling conventions:
* JavaScript strings are modelled as Lean `String`s viewed as lists of
  characters; the repository only ever manipulates them via single-code-unit
  operations, where the two views agree.
* JavaScript string helpers used by the code (`trim`, `toLowerCase`,
  `toUpperCase`, `split('/')`, `join('/')`, `startsWith`, `repeat`) are
  re-implemented here on `List Char` so that every definition is structurally
  recursive and kernel-computable.  ASCII behaviour is modelled exactly; the
  repository's inputs (file names, path prefixes) are ASCII-relevant for all
  case mapping the code performs.
* File-system access (`walkAllMarkdownFiles`, `fs.readFile`) and the
  gray-matter front-matter parser are external collaborators (spec §1 "out of
  scope"); a source's files are therefore modelled as a list of records, each
  carrying the relative path, the parsed front matter and the body text.
-/

/-! ### JavaScript-style character and string helpers -/

/-- Whitespace characters recognised by JavaScript's `trim` / `\s`
(ASCII fragment: space, tab, LF, CR, vertical tab, form feed). -/
def jsWs (c : Char) : Bool :=
  c = ' ' || c = '\t' || c = '\n' || c = '\r' || c = Char.ofNat 11 || c = Char.ofNat 12

/-- Strip leading and trailing whitespace from a character list
(JavaScript `String.prototype.trim`). -/
def trimChars (l : List Char) : List Char :=
  ((l.dropWhile jsWs).reverse.dropWhile jsWs).reverse

/-- JavaScript `s.trim()`. -/
def jsTrim (s : String) : String := ⟨trimChars s.data⟩

/-- ASCII lower-casing of one character (JavaScript `toLowerCase`,
restricted to ASCII, which is all the code relies on). -/
def asciiLowerChar (c : Char) : Char :=
  if 'A' ≤ c ∧ c ≤ 'Z' then Char.ofNat (c.toNat + 32) else c

/-- ASCII upper-casing of one character (JavaScript `toUpperCase`). -/
def asciiUpperChar (c : Char) : Char :=
  if 'a' ≤ c ∧ c ≤ 'z' then Char.ofNat (c.toNat - 32) else c

/-- JavaScript `s.toLowerCase()` (ASCII model). -/
def lowerStr (s : String) : String := ⟨s.data.map asciiLowerChar⟩

/-- JavaScript `s.split('/')` at the character level: splitting on a single
separator, always returning at least one (possibly empty) segment. -/
def splitSlash : List Char → List (List Char)
  | [] => [[]]
  | c :: rest =>
    if c = '/' then [] :: splitSlash rest
    else
      match splitSlash rest with
      | [] => [[c]]
      | g :: gs => (c :: g) :: gs

/-- Path segments of a string, `s.split('/')`. -/
def segsOf (s : String) : List String := (splitSlash s.data).map fun l => ⟨l⟩

/-- JavaScript `segments.join('/')`. -/
def joinSegs : List String → String
  | [] => ""
  | [s] => s
  | s :: rest => s ++ "/" ++ joinSegs rest

/-- JavaScript `list.join(sep)` for an arbitrary separator. -/
def joinSep (sep : String) : List String → String
  | [] => ""
  | [s] => s
  | s :: rest => s ++ sep ++ joinSep sep rest

/-- JavaScript `p.data.isPrefixOf`-style `startsWith`: `strStartsWith s p`
is `s.startsWith(p)`. -/
def strStartsWith (s p : String) : Bool := p.data.isPrefixOf s.data

/-- One pass of `replaceAll('\\\\', '/')` from `toPosix` (`core.ts:50`).
In the TypeScript source the pattern literal `'\\\\'` denotes the
two-character string `\\`, so a *pair* of backslashes becomes one slash;
`replaceAll` scans left to right without overlap, which this recursion
mirrors exactly. -/
def replacePairs : List Char → List Char
  | [] => []
  | [c] => [c]
  | c :: d :: rest =>
    if c = '\\' ∧ d = '\\' then '/' :: replacePairs rest
    else c :: replacePairs (d :: rest)

/-- Does the character list contain two adjacent slashes (`out.includes('//')`)? -/
def hasDblSlash : List Char → Bool
  | [] => false
  | [_] => false
  | c :: d :: rest => (c = '/' ∧ d = '/') || hasDblSlash (d :: rest)

/-- One pass of `replaceAll('//', '/')` (left-to-right, non-overlapping). -/
def collapseOnce : List Char → List Char
  | [] => []
  | [c] => [c]
  | c :: d :: rest =>
    if c = '/' ∧ d = '/' then '/' :: collapseOnce rest
    else c :: collapseOnce (d :: rest)

/-- The `while (out.includes('//'))` loop of `toPosix` (`core.ts:51`),
with explicit fuel.  `collapseLoop_fuel` below proves that fuel equal to the
length of the list always reaches the loop's fixed point, so this is a
faithful model of the (always-terminating) source loop. -/
def collapseLoop : Nat → List Char → List Char
  | 0, l => l
  | fuel + 1, l => if hasDblSlash l then collapseLoop fuel (collapseOnce l) else l

/-- `toPosix` (`core.ts:49-53`): replace each backslash *pair* by `/`, then
repeatedly collapse `//` until none remains. -/
def toPosix (filePath : String) : String :=
  let out := replacePairs filePath.data
  ⟨collapseLoop out.length out⟩

/-- Collapse each run of `-`/`_` characters to a single space
(`replaceAll(/[-_]+/g, ' ')` in `titleCase`, `core.ts:56`). -/
def dashRuns : List Char → List Char
  | [] => []
  | [c] => if c = '-' || c = '_' then [' '] else [c]
  | c :: d :: rest =>
    if c = '-' || c = '_' then
      (if d = '-' || d = '_' then dashRuns (d :: rest) else ' ' :: dashRuns (d :: rest))
    else c :: dashRuns (d :: rest)

/-- Split a character list into maximal whitespace-free words
(`split(/\s+/).filter(Boolean)`, `core.ts:58-59`); the accumulator holds the
current word reversed. -/
def wordsGo : List Char → List Char → List (List Char)
  | [], acc => if acc.isEmpty then [] else [acc.reverse]
  | c :: rest, acc =>
    if jsWs c then
      (if acc.isEmpty then wordsGo rest [] else acc.reverse :: wordsGo rest [])
    else wordsGo rest (c :: acc)

/-- Capitalise one word: first character upper-cased, the rest lower-cased
(`w.charAt(0).toUpperCase() + w.slice(1).toLowerCase()`, `core.ts:60`). -/
def capitalizeWord : List Char → List Char
  | [] => []
  | c :: rest => asciiUpperChar c :: rest.map asciiLowerChar

/-- `titleCase` (`core.ts:55-62`): collapse dash/underscore runs to spaces,
trim, split into words, capitalise each, join with single spaces. -/
def titleCase (input : String) : String :=
  ⟨(joinSep " " ((wordsGo (trimChars (dashRuns input.data)) []).map
      fun w => ⟨capitalizeWord w⟩)).data⟩

/-- `titleFromSegments` (`core.ts:6-11`): drop empty segments, title-case the
rest, join with `' / '`. -/
def titleFromSegments (segments : List String) : String :=
  joinSep " / " ((segments.filter fun s => s ≠ "").map titleCase)

/-! ### Locale-aware string comparison

The sort comparators in `sortTreeChildren` (`core.ts:230,236,239`) tie-break
with JavaScript's `String.prototype.localeCompare`.  Under Node's default
ICU root collation, ASCII strings compare by a primary level that is
case-insensitive (and orders punctuation < digits < letters) and a tertiary
level on which a lower-case letter sorts before its upper-case form.  The
model below reproduces exactly that two-level comparison for ASCII strings,
which is the domain the repository sorts over (file and folder names). -/

/-- Primary collation weight: case-folded code point. -/
def primW (c : Char) : Nat := (asciiLowerChar c).toNat

/-- Tertiary collation weight: upper-case letters sort after lower-case. -/
def tertW (c : Char) : Nat := if 'A' ≤ c ∧ c ≤ 'Z' then 1 else 0

/-- Three-way comparison on naturals. -/
def natCmp (a b : Nat) : Ordering :=
  if a < b then .lt else if b < a then .gt else .eq

/-- Lexicographic comparison of weight lists. -/
def lexNat : List Nat → List Nat → Ordering
  | [], [] => .eq
  | [], _ :: _ => .lt
  | _ :: _, [] => .gt
  | a :: as, b :: bs =>
    match natCmp a b with
    | .eq => lexNat as bs
    | o => o

/-- Root-collation comparison of two strings: all primary weights first,
then the tertiary weights. -/
def ucaCmp (a b : String) : Ordering :=
  match lexNat (a.data.map primW) (b.data.map primW) with
  | .eq => lexNat (a.data.map tertW) (b.data.map tertW)
  | o => o

/-- Value of an `Ordering` as the integer returned by `localeCompare`. -/
def ordToInt : Ordering → Int
  | .lt => -1
  | .eq => 0
  | .gt => 1

/-- JavaScript `a.localeCompare(b)` under the default (ICU root) collation,
modelled for ASCII strings. -/
def localeCompare (a b : String) : Int := ordToInt (ucaCmp a b)

/-! ### Data model (`core.ts:13-47`) -/

/-- Front matter parsed from the top of a rule file (`core.ts:44-47`).
`enabled = none` models an absent (or non-boolean) field, `order = none` an
absent (or non-numeric) field, exactly matching the `=== false` and
`typeof === 'number'` checks in `appendDirectoryToTree`. -/
structure FrontMatter where
  enabled : Option Bool
  order : Option Int
deriving Repr, DecidableEq

/-- One Markdown file of a source, as seen by the tree builder: its path
relative to the source directory, its parsed front matter and its body.
Enumerating the files and parsing the front matter are external
collaborators (spec §1), so they appear here as given data. -/
structure MDFile where
  rel : String
  fm : FrontMatter
  body : String
deriving Repr, DecidableEq

/-- A rule file in the tree (`core.ts:27-32`). -/
structure Rule where
  content : String
  fileName : String
  order : Int
  title : String
deriving Repr, DecidableEq

/-- The data stored at one key of the shared tree map (`core.ts:34-42`).
`childrenKeys` models the insertion-ordered key set of the node's
`children` map; the child node objects themselves are shared with the flat
map (`tree.set` and `parent.children.set` store the same object), so a
child entry is recovered by looking up the child's full path. -/
structure NodeData where
  name : String
  path : String
  depth : Nat
  indexContent : Option String
  sectionOrder : Option Int
  rules : List Rule
  childrenKeys : List String
deriving Repr, DecidableEq

/-- The shared tree: a `Map<string, SectionNode>` keyed by posix relative
path, modelled as an insertion-ordered association list with unique keys. -/
abbrev RuleTree : Type := List (String × NodeData)

/-- `tree.get(k)` (first matching entry). -/
def lookupT : RuleTree → String → Option NodeData
  | [], _ => none
  | (k', d) :: rest, k => if k' = k then some d else lookupT rest k

/-- `tree.has(k)`. -/
def hasKey (t : RuleTree) (k : String) : Bool := (lookupT t k).isSome

/-- Mutate the node stored at key `k` in place (models field assignment on
the object returned by `tree.get`/`ensureNode`). -/
def updateAt : RuleTree → String → (NodeData → NodeData) → RuleTree
  | [], _, _ => []
  | (k', d) :: rest, k, g =>
    if k' = k then (k', g d) :: rest else (k', d) :: updateAt rest k g

/-- A freshly created node for the folder with the given (slash-free)
segments (`core.ts:150-161`): `path` is the joined segments, `depth` the
segment count (`split('/').length`), `name` the title-cased last segment. -/
def freshNode (segs : List String) : NodeData :=
  { name := if segs.isEmpty then "" else titleCase (segs.getLastD "")
    path := joinSegs segs
    depth := segs.length
    indexContent := none
    sectionOrder := none
    rules := []
    childrenKeys := [] }

/-- `parent.children.set(seg, node)` on the key set: a `Map.set` keeps an
existing key in place and appends a new one. -/
def addChildKey (keys : List String) (s : String) : List String :=
  if keys.contains s then keys else keys ++ [s]

/-- The recursion of `ensureNode` (`core.ts:147-169`), driven by the folder's
segment list *reversed* (head = last segment) so that the
parent step is structural.  Mirrors the source exactly: if the key exists,
return; otherwise insert the fresh node, ensure the parent
(`split('/').slice(0,-1).join('/')`), then register the node under its last
segment in the parent's children map. -/
def ensureRev (t : RuleTree) : List String → RuleTree
  | [] => if hasKey t "" then t else t ++ [("", freshNode [])]
  | s :: rest =>
    let segs := (s :: rest).reverse
    let key := joinSegs segs
    if hasKey t key then t
    else
      let t1 := t ++ [(key, freshNode segs)]
      let t2 := ensureRev t1 rest
      updateAt t2 (joinSegs rest.reverse) fun d =>
        { d with childrenKeys := addChildKey d.childrenKeys s }

/-- `ensureNode` (`core.ts:147-169`): normalise the folder path with
`toPosix` (the empty path stays the root key), then run the creation
recursion on its segments. -/
def ensureNode (t : RuleTree) (folderRelative : String) : RuleTree :=
  if folderRelative = "" then ensureRev t []
  else ensureRev t (segsOf (toPosix folderRelative)).reverse

/-! ### Source normalization (`core.ts:101-137`) -/

/-- `normalizePrefixes` step 2: strip one leading `./` together with the
whole run of slashes after the dot (`replace(/^\.\/+/, '')`). -/
def stripDotSlash (s : String) : String :=
  match s.data with
  | '.' :: '/' :: rest => ⟨rest.dropWhile (· = '/')⟩
  | _ => s

/-- `normalizePrefixes` step 3: strip all leading slashes
(`replace(/^\/+/, '')`). -/
def stripLeadSlashes (s : String) : String := ⟨s.data.dropWhile (· = '/')⟩

/-- Normalization of one declared prefix, as composed in
`normalizePrefixes` (`core.ts:104-108`): trim, `toPosix`, strip a leading
`./`, strip leading separators. -/
def normalizeOnePfx (p : String) : String :=
  stripLeadSlashes (stripDotSlash (toPosix (jsTrim p)))

/-- `normalizePrefixes` (`core.ts:101-110`): normalise each prefix and drop
the ones that become empty. -/
def normalizePrefixes (prefixes : List String) : List String :=
  (prefixes.map normalizeOnePfx).filter fun p => p.length > 0

/-- Resolved form of a declared source (`core.ts:116-121`).  The absolute
directory path is file-system territory and plays no role in the tree
semantics, so it is not modelled. -/
structure NormalizedRulesSource where
  includesAll : Bool
  includes : List String
  excludes : List String
deriving Repr, DecidableEq

/-- `normalizeRulesSource` (`core.ts:123-137`) on the already
array-coerced include/exclude lists (`ensureArray` resolves the
string-vs-array union at the config boundary). -/
def normalizeRulesSource (includesRaw excludesRaw : List String) : NormalizedRulesSource :=
  let inc := includesRaw.map jsTrim
  let all := inc = ["*"]
  { includesAll := all
    includes := if all then [] else normalizePrefixes inc
    excludes := normalizePrefixes (excludesRaw.map jsTrim) }

/-- The posix path separator (`path.posix.sep`). -/
def posixSep : String := "/"

/-- `relStartsWith` (`core.ts:139-145`): the relative path equals the
prefix, or extends it across a path-segment boundary.  The source's second
and third disjuncts both test `prefix + '/'` because `path.posix.sep` is
`'/'`. -/
def relStartsWith (relativePath pfx : String) : Bool :=
  relativePath = pfx
    || strStartsWith relativePath (pfx ++ "/")
    || strStartsWith relativePath (pfx ++ posixSep)

/-- The inclusion filter of `appendDirectoryToTree` (`core.ts:177-185`):
without the `*` marker an empty include list excludes everything and
otherwise some include prefix must match; in every case a matching exclude
prefix wins. -/
def includedB (source : NormalizedRulesSource) (rel : String) : Bool :=
  if !source.includesAll then
    if source.includes.isEmpty then false
    else if !(source.includes.any fun p => relStartsWith rel p) then false
    else !(source.excludes.any fun p => relStartsWith rel p)
  else !(source.excludes.any fun p => relStartsWith rel p)

/-! ### Tree building (`core.ts:171-227`) -/

/-- Base name of a file: `fileName.replace(/\.md$/i, '')`, stripping one
trailing `.md` extension case-insensitively while leaving the rest of the
name untouched (`core.ts:200`). -/
def baseNameOf (fileName : String) : String :=
  match fileName.data.reverse with
  | d :: m :: '.' :: rest =>
    if asciiLowerChar d = 'd' ∧ asciiLowerChar m = 'm' then ⟨rest.reverse⟩ else fileName
  | _ => fileName

/-- `fileName.toLowerCase() === '_index.md'` (`core.ts:202`). -/
def isIndexFile (fileName : String) : Bool := lowerStr fileName = "_index.md"

/-- The rule record appended for an enabled non-index file (`core.ts:213-218`). -/
def mkRule (base body : String) (ord : Int) : Rule :=
  { title := titleCase base, order := ord, fileName := base, content := body }

/-- The file name popped off the split relative path (`core.ts:188-190`):
`segments.pop()`, the last segment of `toPosix(rel).split('/')`. -/
def fileNameOf (f : MDFile) : String := (segsOf (toPosix f.rel)).getLastD ""

/-- The folder path of a file, `segments.join('/')` after the pop
(`core.ts:191`). -/
def folderRelOf (f : MDFile) : String := joinSegs (segsOf (toPosix f.rel)).dropLast

/-- The flat-map key of the node `ensureNode` returns for the file's
folder: `''` stays the root key, anything else is `toPosix`-normalised
(`core.ts:148`). -/
def folderKeyOf (f : MDFile) : String :=
  if folderRelOf f = "" then "" else toPosix (folderRelOf f)

/-- The base name of the file, extension stripped (`core.ts:200`). -/
def baseOf (f : MDFile) : String := baseNameOf (fileNameOf f)

/-- `frontmatter.enabled === false` (`core.ts:203`). -/
def disabledOf (f : MDFile) : Prop := f.fm.enabled = some false

instance (f : MDFile) : Decidable (disabledOf f) := by unfold disabledOf; infer_instance

/-- The mutation the loop body applies to the file's folder node
(`core.ts:204-218`): an `_index` file overwrites `sectionOrder` and
`indexContent` (cleared when disabled); any other file first removes the
rule with the same base name and then, unless disabled, appends the new
rule record. -/
def placeData (f : MDFile) (d : NodeData) : NodeData :=
  if isIndexFile (fileNameOf f) then
    { d with sectionOrder := if disabledOf f then none else f.fm.order
             indexContent := if disabledOf f then none else some (jsTrim f.body) }
  else
    { d with rules := (d.rules.filter fun r => r.fileName ≠ baseOf f)
                        ++ (if disabledOf f then []
                            else [mkRule (baseOf f) (jsTrim f.body) (f.fm.order.getD 0)]) }

/-- The loop body of `appendDirectoryToTree` (`core.ts:187-219`) for one
included file: ensure the folder node exists, then apply the index/rule
mutation to it. -/
def place (t : RuleTree) (f : MDFile) : RuleTree :=
  updateAt (ensureNode t (folderRelOf f)) (folderKeyOf f) (placeData f)

/-- `appendDirectoryToTree` (`core.ts:171-220`): filter the enumerated
files by the include/exclude prefixes, then place each one in declared
order into the shared tree. -/
def appendDirectoryToTree (t : RuleTree) (source : NormalizedRulesSource)
    (files : List MDFile) : RuleTree :=
  (files.filter fun f => includedB source f.rel).foldl place t

/-- `buildTree` (`core.ts:222-227`) at the normalized-source level: build
from an empty tree. -/
def buildTree (source : NormalizedRulesSource) (files : List MDFile) : RuleTree :=
  appendDirectoryToTree ([] : RuleTree) source files

/-! ### The recursive section tree and sorting (`core.ts:34-42, 229-243`) -/

/-- A `SectionNode` (`core.ts:34-42`) with its children map materialised as
an insertion-ordered list of (segment key, child) entries. -/
inductive SectionNode : Type where
  | node : (name : String) → (path : String) → (depth : Nat) →
      (indexContent : Option String) → (sectionOrder : Option Int) →
      (rules : List Rule) → (children : List (String × SectionNode)) → SectionNode
deriving Repr

def SectionNode.name : SectionNode → String
  | .node nm _ _ _ _ _ _ => nm

def SectionNode.path : SectionNode → String
  | .node _ p _ _ _ _ _ => p

def SectionNode.depth : SectionNode → Nat
  | .node _ _ d _ _ _ _ => d

def SectionNode.indexContent : SectionNode → Option String
  | .node _ _ _ ic _ _ _ => ic

def SectionNode.sectionOrder : SectionNode → Option Int
  | .node _ _ _ _ so _ _ => so

def SectionNode.rules : SectionNode → List Rule
  | .node _ _ _ _ _ rs _ => rs

def SectionNode.children : SectionNode → List (String × SectionNode)
  | .node _ _ _ _ _ _ ch => ch

/-- The rule-file comparator `a.order - b.order || a.fileName.localeCompare(b.fileName)`
(`core.ts:230`): the order difference when non-zero, otherwise the locale
comparison of the file names. -/
def ruleCmp (a b : Rule) : Int :=
  if a.order - b.order = 0 then localeCompare a.fileName b.fileName else a.order - b.order

/-- The ordering relation realised by sorting with `ruleCmp`. -/
def ruleLe (a b : Rule) : Prop := ruleCmp a b ≤ 0

instance : DecidableRel ruleLe := fun a b => by unfold ruleLe; infer_instance

/-- The child-entry comparator of `sortTreeChildren` (`core.ts:231-240`):
entries with a numeric `sectionOrder` come first (ordered by it, ties by
key), entries without come last (ordered by key). -/
def childCmp (a b : String × SectionNode) : Int :=
  match a.2.sectionOrder, b.2.sectionOrder with
  | some x, some y => if x - y = 0 then localeCompare a.1 b.1 else x - y
  | some _, none => -1
  | none, some _ => 1
  | none, none => localeCompare a.1 b.1

/-- The ordering relation realised by sorting with `childCmp`. -/
def childLe (a b : String × SectionNode) : Prop := childCmp a b ≤ 0

instance : DecidableRel childLe := fun a b => by unfold childLe; infer_instance

mutual
/-- `sortTreeChildren` (`core.ts:229-243`).  JavaScript's `Array.sort` with a
consistent comparator is modelled by the stable `List.insertionSort` on the
relation `cmp ≤ 0`.  The source sorts a node's entries and then recurses
into each child; recursing first and sorting after is the same tree,
because the comparator reads only each entry's key and `sectionOrder`,
neither of which the recursive call changes. -/
def sortTreeChildren : SectionNode → SectionNode
  | .node nm p d ic so rs ch =>
    .node nm p d ic so (List.insertionSort ruleLe rs)
      (List.insertionSort childLe (sortChildList ch))

/-- Recursive sorting of every entry of a children list. -/
def sortChildList : List (String × SectionNode) → List (String × SectionNode)
  | [] => []
  | (k, c) :: rest => (k, sortTreeChildren c) :: sortChildList rest
end

/-! ### Rendering (`core.ts:245-311`) -/

/-- `'#'.repeat(n)`. -/
def hashes (n : Nat) : String := ⟨List.replicate n '#'⟩

/-- The truthiness test `x && x.trim().length > 0` applied to an optional
index content (`core.ts:265, 285, 290-291`): an absent or empty string is
falsy, otherwise the trimmed text must be non-empty. -/
def hasText : Option String → Bool
  | none => false
  | some s => s ≠ "" && jsTrim s ≠ ""

/-- `Math.min(6, Math.max(2, options?.maxHeadingDepth ?? 4))` (`core.ts:250`). -/
def clampDepth (maxHeadingDepth : Option Int) : Nat :=
  (min 6 (max 2 (maxHeadingDepth.getD 4))).toNat

/-- The fixed generated-file banner (`core.ts:262`). -/
def banner : String :=
  "<!-- Generated by @imjamesbarrett/agent-rules – do not edit directly. -->"

/-- The `=== title ===` block emitted for one rule (`core.ts:269-273` and
`core.ts:298-304`): header line, blank line, the content when non-empty,
blank line. -/
def ruleBlock (fullTitle : String) (content : String) : List String :=
  ["=== " ++ fullTitle ++ " ===", ""]
    ++ (if content.length > 0 then [content] else []) ++ [""]

mutual
/-- `renderNode` (`core.ts:277-306`): the lines contributed by one node and
its descendants, in emission order.  A node within the cap emits its
heading and optional index content; a node beyond the cap emits no heading
but a `(label)` line before its index content; each rule title is prefixed
with the beyond-cap label when the node is beyond the cap. -/
def renderNodeLines (maxD : Nat) : SectionNode → List String
  | .node nm p d ic _ rs ch =>
    let headingLevel := d + 1
    let pathSegments := if p = "" then [] else segsOf p
    let beyondSegments := pathSegments.drop (maxD - 1)
    let own :=
      if 0 < d ∧ headingLevel ≤ maxD then
        [hashes headingLevel ++ " " ++ nm, ""]
          ++ (if hasText ic then [ic.getD "", ""] else [])
      else if maxD < headingLevel ∧ hasText ic then
        (let label := titleFromSegments beyondSegments
         (if label ≠ "" then ["(" ++ label ++ ")"] else []) ++ [ic.getD "", ""])
      else []
    let ruleLines := rs.flatMap fun r =>
      let label := if maxD < headingLevel then titleFromSegments beyondSegments else ""
      ruleBlock (if label ≠ "" then label ++ " — " ++ r.title else r.title) r.content
    own ++ ruleLines ++ renderChildrenLines maxD ch

/-- The lines of a children list, child by child in order. -/
def renderChildrenLines (maxD : Nat) : List (String × SectionNode) → List String
  | [] => []
  | (_, c) :: rest => renderNodeLines maxD c ++ renderChildrenLines maxD rest
end

/-- `while (lines.length > 0 && lines.at(-1) === '') lines.pop()`
(`core.ts:309`). -/
def dropTrailingEmpties (lines : List String) : List String :=
  (lines.reverse.dropWhile fun l => l = "").reverse

/-- The default root used when the tree has no `''` entry (`core.ts:252-258`);
the object literal leaves `indexContent` and `sectionOrder` absent. -/
def defaultRoot : SectionNode := .node "" "" 0 none none [] []

/-- The line list produced by `renderTree` (`core.ts:245-310`) before
joining: banner, blank, `# title`, blank, the root's index content and rule
blocks, then every child subtree, with trailing blank lines removed. -/
def renderLines (root? : Option SectionNode) (title : String)
    (maxHeadingDepth : Option Int) : List String :=
  let maxD := clampDepth maxHeadingDepth
  match sortTreeChildren (root?.getD defaultRoot) with
  | .node _ _ _ ic _ rs ch =>
    dropTrailingEmpties
      ([banner, "", "# " ++ title, ""]
        ++ (if hasText ic then [ic.getD "", ""] else [])
        ++ rs.flatMap (fun r => ruleBlock r.title r.content)
        ++ renderChildrenLines maxD ch)

/-- `renderTree` (`core.ts:245-311`): the joined lines plus exactly one
trailing newline. -/
def renderTree (root? : Option SectionNode) (title : String)
    (maxHeadingDepth : Option Int) : String :=
  joinSep "\n" (renderLines root? title maxHeadingDepth) ++ "\n"

/-! ### Reading the recursive tree out of the flat map

`renderTree` in the source receives the flat `Map` and follows the object
references stored in each node's `children` map; because `tree.set` and
`parent.children.set` always store the same object (`core.ts:162-166`),
the child object under segment `s` of the node at key `k` is the map entry
at key `k ++ "/" ++ s` (or `s` at the root).  The conversion below
materialises that reference structure, with fuel bounded by the map size,
which dominates the depth of any reference chain in a built tree. -/

/-- The flat-map key of the child of the node at `k` under segment `s`. -/
def childKeyStr (k s : String) : String := if k = "" then s else k ++ "/" ++ s

/-- Materialise the node at key `k` as a recursive `SectionNode`. -/
def toSection (t : RuleTree) : Nat → String → SectionNode
  | 0, k => .node "" k 0 none none [] []
  | fuel + 1, k =>
    match lookupT t k with
    | none => .node "" k 0 none none [] []
    | some d =>
      .node d.name d.path d.depth d.indexContent d.sectionOrder d.rules
        (d.childrenKeys.map fun s => (s, toSection t fuel (childKeyStr k s)))

/-- `tree.get('')` as a recursive tree. -/
def treeRoot (t : RuleTree) : Option SectionNode :=
  (lookupT t "").map fun _ => toSection t t.length ""

/-- `renderTree` applied to the flat tree produced by the builder. -/
def renderFlat (t : RuleTree) (title : String) (maxHeadingDepth : Option Int) : String :=
  renderTree (treeRoot t) title maxHeadingDepth

/-! ### Basic facts about the string helpers -/

theorem splitSlash_ne_nil (l : List Char) : splitSlash l ≠ [] := by
  cases l with
  | nil => simp [splitSlash]
  | cons c rest =>
    simp only [splitSlash]
    split
    · simp
    · split <;> simp

theorem collapseOnce_length_le : ∀ l : List Char, (collapseOnce l).length ≤ l.length
  | [] => by simp [collapseOnce]
  | [c] => by simp [collapseOnce]
  | c :: d :: rest => by
    simp only [collapseOnce]
    split
    · have := collapseOnce_length_le rest
      simp only [List.length_cons]
      omega
    · have := collapseOnce_length_le (d :: rest)
      simp only [List.length_cons] at *
      omega

theorem collapseOnce_length_lt :
    ∀ l : List Char, hasDblSlash l = true → (collapseOnce l).length < l.length
  | c :: d :: rest, h => by
    simp only [collapseOnce]
    split
    · have := collapseOnce_length_le rest
      simp only [List.length_cons]
      omega
    · rename_i hcd
      have hd : hasDblSlash (d :: rest) = true := by
        simp only [hasDblSlash, hcd] at h
        simpa using h
      have := collapseOnce_length_lt (d :: rest) hd
      simp only [List.length_cons] at *
      omega

/-- With fuel at least the length of the list, the collapse loop reaches its
fixed point: the result contains no `//`, exactly as the source's `while`
loop guarantees on exit. -/
theorem collapseLoop_noDbl :
    ∀ (fuel : Nat) (l : List Char), l.length ≤ fuel →
      hasDblSlash (collapseLoop fuel l) = false
  | 0, l, h => by
    have : l = [] := by cases l <;> simp_all
    subst this
    simp [collapseLoop, hasDblSlash]
  | fuel + 1, l, h => by
    simp only [collapseLoop]
    split
    · rename_i hdbl
      exact collapseLoop_noDbl fuel (collapseOnce l)
        (by have := collapseOnce_length_lt l hdbl; omega)
    · rename_i hdbl
      exact Bool.not_eq_true _ |>.mp hdbl

/-- The posix form of any string contains no duplicate separators. -/
theorem toPosix_noDbl (s : String) : hasDblSlash (toPosix s).data = false := by
  simp only [toPosix]
  exact collapseLoop_noDbl _ _ le_rfl

theorem hasDblSlash_tail {c : Char} {l : List Char}
    (h : hasDblSlash (c :: l) = false) : hasDblSlash l = false := by
  cases l with
  | nil => simp [hasDblSlash]
  | cons d rest =>
    simp only [hasDblSlash, Bool.or_eq_false_iff] at h
    exact h.2

theorem hasDblSlash_dropWhile (p : Char → Bool) :
    ∀ l : List Char, hasDblSlash l = false → hasDblSlash (l.dropWhile p) = false := by
  intro l
  induction l with
  | nil => simp
  | cons c rest ih =>
    intro h
    rw [List.dropWhile_cons]
    split
    · exact ih (hasDblSlash_tail h)
    · exact h

theorem dropWhileSlash_not_lead :
    ∀ l : List Char, (List.isPrefixOf ['/'] (l.dropWhile fun c => c = '/')) = false := by
  intro l
  induction l with
  | nil => simp [List.isPrefixOf]
  | cons c rest ih =>
    rw [List.dropWhile_cons]
    split
    · exact ih
    · rename_i hc
      simp only [List.isPrefixOf, Bool.and_eq_false_iff]
      left
      simpa using fun h => hc (by simp [h.symm])

/-! ### Claim C7 — prefix normalization -/

/-- Claim C7 as stated is false on the code: `toPosix` replaces the
two-character sequence `\\` (the TypeScript literal `'\\\\'`) by `/`, so a
prefix containing a *single* backslash is left unchanged rather than being
converted to the canonical separator.  Here `"a\\b"` (the five characters
`a`, `\`, `b` after Lean unescaping is three: `a`, `\`, `b`) normalizes to
itself, not to `"a/b"`. -/
theorem C7_counterexample_single_backslash :
    normalizePrefixes ["a\\b"] = ["a\\b"] ∧ ("a\\b" : String) ≠ "a/b" := by
  constructor
  · rfl
  · decide

/-- Claim C7, amended: normalization trims whitespace, converts each
*doubled* backslash to `/` (a lone backslash is not a recognised
separator and is kept), collapses runs of duplicate `/` separators to one,
strips a leading `./` and a leading separator, and drops prefixes that
normalize to the empty string.  The universal part states the resulting
normal form (non-empty, no duplicate separator, no leading separator); the
equations exhibit each individual rewriting step on concrete prefixes,
including the corrected backslash behaviour. -/
theorem C7_normalizePrefixes_amended :
    (∀ (ps : List String) (q : String), q ∈ normalizePrefixes ps →
        0 < q.length ∧ hasDblSlash q.data = false ∧ strStartsWith q "/" = false)
    ∧ normalizePrefixes ["  ./a//b  "] = ["a/b"]
    ∧ normalizePrefixes ["a\\\\b"] = ["a/b"]
    ∧ normalizePrefixes ["a\\b"] = ["a\\b"]
    ∧ normalizePrefixes ["/x", "", "   "] = ["x"] := by
  refine ⟨?_, rfl, rfl, rfl, rfl⟩
  intro ps q hq
  simp only [normalizePrefixes, List.mem_filter, List.mem_map] at hq
  obtain ⟨⟨p, _, rfl⟩, hlen⟩ := hq
  refine ⟨by simpa using hlen, ?_, ?_⟩
  · have h1 : hasDblSlash (toPosix (jsTrim p)).data = false := toPosix_noDbl _
    have h2 : hasDblSlash (stripDotSlash (toPosix (jsTrim p))).data = false := by
      simp only [stripDotSlash]
      split
      · rename_i l rest heq
        refine hasDblSlash_dropWhile _ _ ?_
        rw [heq] at h1
        exact hasDblSlash_tail (hasDblSlash_tail h1)
      · exact h1
    simp only [normalizeOnePfx, stripLeadSlashes]
    exact hasDblSlash_dropWhile _ _ h2
  · simp only [normalizeOnePfx, stripLeadSlashes, strStartsWith]
    exact dropWhileSlash_not_lead _

/-- Witness for the universal part of the amended C7 theorem at the
concrete prefix list `["  ./a//b  "]`. -/
theorem C7_normalizePrefixes_amended_witness :
    0 < ("a/b" : String).length ∧ hasDblSlash ("a/b" : String).data = false
      ∧ strStartsWith "a/b" "/" = false :=
  C7_normalizePrefixes_amended.1 ["  ./a//b  "] "a/b" (by decide)

/-! ### Claim C5 — the include/exclude filter -/

theorem isPrefixOf_iff_exists :
    ∀ (l1 l2 : List Char), l1.isPrefixOf l2 = true ↔ ∃ t, l2 = l1 ++ t := by
  intro l1
  induction l1 with
  | nil => intro l2; simp [List.isPrefixOf]
  | cons a as ih =>
    intro l2
    cases l2 with
    | nil => simp [List.isPrefixOf]
    | cons b bs =>
      simp only [List.isPrefixOf, Bool.and_eq_true, beq_iff_eq, ih, List.cons_append,
        List.cons.injEq]
      constructor
      · rintro ⟨rfl, t, rfl⟩; exact ⟨t, rfl, rfl⟩
      · rintro ⟨t, rfl, rfl⟩; exact ⟨rfl, t, rfl⟩

/-- The spec's notion of one prefix matching a relative path: the path
equals the prefix, or extends it across a path-segment boundary
("matching is prefix-on-path-segments, not substring"). -/
def specSegMatch (p rel : String) : Prop :=
  rel = p ∨ ∃ rest : String, rel = p ++ "/" ++ rest

/-- The spec's inclusion rule, stated from its own words (spec §4.2): a
file is included iff ("include everything" is set OR some include prefix
matches) AND no exclude prefix matches. -/
def specIncluded (source : NormalizedRulesSource) (rel : String) : Prop :=
  (source.includesAll = true ∨ ∃ p ∈ source.includes, specSegMatch p rel)
    ∧ ¬ ∃ p ∈ source.excludes, specSegMatch p rel

theorem strStartsWith_append_iff (rel p q : String) :
    strStartsWith rel (p ++ q) = true ↔ ∃ t : List Char, rel.data = p.data ++ q.data ++ t := by
  rw [strStartsWith, isPrefixOf_iff_exists]
  constructor
  · rintro ⟨t, ht⟩
    exact ⟨t, by rw [ht, String.data_append, List.append_assoc]⟩
  · rintro ⟨t, ht⟩
    exact ⟨t, by rw [ht, String.data_append, List.append_assoc]⟩

/-- `relStartsWith` decides exactly the spec's segment-boundary match. -/
theorem relStartsWith_iff (rel p : String) :
    relStartsWith rel p = true ↔ specSegMatch p rel := by
  simp only [relStartsWith, posixSep, Bool.or_eq_true, decide_eq_true_eq]
  constructor
  · rintro ((h | h) | h)
    · exact Or.inl h
    all_goals
      rw [strStartsWith_append_iff] at h
      obtain ⟨t, ht⟩ := h
      refine Or.inr ⟨⟨t⟩, String.ext ?_⟩
      rw [String.data_append, String.data_append]
      simpa using ht
  · rintro (h | ⟨rest, rfl⟩)
    · exact Or.inl (Or.inl h)
    · refine Or.inl (Or.inr ?_)
      rw [strStartsWith_append_iff]
      refine ⟨rest.data, ?_⟩
      rw [String.data_append, String.data_append]

theorem anyMatch_iff (l : List String) (rel : String) :
    (l.any fun p => relStartsWith rel p) = true ↔ ∃ p ∈ l, specSegMatch p rel := by
  rw [List.any_eq_true]
  constructor
  · rintro ⟨p, hp, hm⟩
    exact ⟨p, hp, (relStartsWith_iff rel p).mp hm⟩
  · rintro ⟨p, hp, hm⟩
    exact ⟨p, hp, (relStartsWith_iff rel p).mpr hm⟩

theorem noExclude_iff (source : NormalizedRulesSource) (rel : String) :
    (source.excludes.any fun p => relStartsWith rel p) = false ↔
      ¬ ∃ p ∈ source.excludes, specSegMatch p rel := by
  rw [← anyMatch_iff source.excludes rel]
  constructor
  · intro h hc
    rw [hc] at h
    cases h
  · intro h
    cases hb : source.excludes.any fun p => relStartsWith rel p
    · rfl
    · exact absurd hb h

/-- Claim C5: a file is included iff ("include everything" is set, or its
relative path equals or segment-extends some normalized include prefix)
and no exclude prefix matches the same way; excludes always win, also
under "include everything".  The second conjunct shows the matching is not
a substring test: the prefix `react` does not match `reactive/x.md`. -/
theorem C5_inclusion_rule :
    (∀ (source : NormalizedRulesSource) (rel : String),
        includedB source rel = true ↔ specIncluded source rel)
    ∧ relStartsWith "reactive/x.md" "react" = false := by
  refine ⟨?_, by decide⟩
  intro source rel
  unfold includedB specIncluded
  cases hAll : source.includesAll with
  | true =>
    simp only [Bool.not_true, Bool.false_eq_true, if_false, Bool.not_eq_true']
    constructor
    · intro h
      exact ⟨by simp, (noExclude_iff source rel).mp h⟩
    · rintro ⟨-, h2⟩
      exact (noExclude_iff source rel).mpr h2
  | false =>
    simp only [Bool.not_false, if_true, Bool.false_eq_true, false_or]
    by_cases hemp : source.includes.isEmpty = true
    · rw [if_pos hemp]
      rw [List.isEmpty_iff] at hemp
      simp [hemp]
    · rw [if_neg hemp]
      by_cases hany : (source.includes.any fun p => relStartsWith rel p) = true
      · rw [if_neg (by simp [hany])]
        simp only [Bool.not_eq_true']
        constructor
        · intro h
          exact ⟨(anyMatch_iff _ _).mp hany, (noExclude_iff source rel).mp h⟩
        · rintro ⟨-, h2⟩
          exact (noExclude_iff source rel).mpr h2
      · have hany2 : (source.includes.any fun p => relStartsWith rel p) = false :=
          Bool.eq_false_iff.mpr hany
        rw [hany2]
        simp only [Bool.not_false, if_true, Bool.false_eq_true, false_iff, not_and]
        intro h1
        exact absurd ((anyMatch_iff _ _).mpr h1) hany

/-! ### Splitting and joining path strings -/

theorem joinSegs_cons_cons (a b : String) (rest : List String) :
    joinSegs (a :: b :: rest) = a ++ "/" ++ joinSegs (b :: rest) := rfl

theorem joinSegs_splitSlash :
    ∀ l : List Char, joinSegs ((splitSlash l).map fun g => (⟨g⟩ : String)) = ⟨l⟩ := by
  intro l
  induction l with
  | nil => rfl
  | cons c rest ih =>
    simp only [splitSlash]
    split
    · rename_i hc
      subst hc
      cases hS : splitSlash rest with
      | nil => exact absurd hS (splitSlash_ne_nil rest)
      | cons g gs =>
        rw [hS] at ih
        simp only [List.map_cons] at ih ⊢
        rw [joinSegs_cons_cons, ih]
        apply String.ext
        simp [String.data_append]
    · cases hS : splitSlash rest with
      | nil => exact absurd hS (splitSlash_ne_nil rest)
      | cons g gs =>
        rw [hS] at ih
        simp only [List.map_cons] at ih ⊢
        cases gs with
        | nil =>
          simp only [List.map_nil, joinSegs] at ih ⊢
          have hg : g = rest := by
            have := congrArg String.data ih
            simpa using this
          subst hg
          rfl
        | cons g2 gs2 =>
          simp only [List.map_cons] at ih ⊢
          rw [joinSegs_cons_cons] at ih ⊢
          apply String.ext
          have := congrArg String.data ih
          simp only [String.data_append] at this ⊢
          simp [← this]

/-- `join('/')` inverts `split('/')`. -/
theorem joinSegs_segsOf (s : String) : joinSegs (segsOf s) = s := by
  have := joinSegs_splitSlash s.data
  simpa [segsOf] using this

/-! ### Observations on the flat tree

The builder claims are proved through three per-key observations — the
rules list, the index content and the section order, each read with the
default an absent node would render to — plus key-presence facts. -/

/-- Rules stored at key `k`, an empty list when the node is absent. -/
def rulesD (t : RuleTree) (k : String) : List Rule :=
  ((lookupT t k).map fun d => d.rules).getD []

/-- Index content stored at key `k`. -/
def icD (t : RuleTree) (k : String) : Option String :=
  ((lookupT t k).map fun d => d.indexContent).getD none

/-- Section order stored at key `k`. -/
def soD (t : RuleTree) (k : String) : Option Int :=
  ((lookupT t k).map fun d => d.sectionOrder).getD none

theorem lookupT_append (t1 t2 : RuleTree) (k : String) :
    lookupT (t1 ++ t2) k =
      match lookupT t1 k with
      | some d => some d
      | none => lookupT t2 k := by
  induction t1 with
  | nil => simp [lookupT]
  | cons e rest ih =>
    obtain ⟨k', d⟩ := e
    simp only [List.cons_append, lookupT]
    split <;> simp [ih]

theorem lookupT_updateAt :
    ∀ (t : RuleTree) (k : String) (g : NodeData → NodeData) (k' : String),
      lookupT (updateAt t k g) k' =
        if k' = k then (lookupT t k).map g else lookupT t k'
  | [], k, g, k' => by simp [updateAt, lookupT]
  | (k0, d) :: rest, k, g, k' => by
    by_cases h0 : k0 = k
    · subst h0
      rw [updateAt, if_pos rfl]
      by_cases h1 : k0 = k'
      · subst h1
        rw [lookupT, if_pos rfl, lookupT, if_pos rfl, if_pos rfl]
        rfl
      · rw [lookupT, if_neg h1, if_neg (fun hc : k' = k0 => h1 hc.symm),
          lookupT, if_neg h1]
    · rw [updateAt, if_neg h0]
      by_cases h1 : k0 = k'
      · subst h1
        rw [lookupT, if_pos rfl, if_neg (fun hc : k0 = k => h0 hc), lookupT, if_pos rfl]
      · rw [lookupT, if_neg h1, lookupT_updateAt rest k g k']
        by_cases h2 : k' = k
        · rw [if_pos h2, if_pos h2, lookupT, if_neg h0]
        · rw [if_neg h2, if_neg h2, lookupT, if_neg h1]

/-- Appending a fresh (empty-fields) node never changes the default-read
observations: a created node reads the same as an absent one. -/
theorem obs_append_fresh (t : RuleTree) (key : String) (segs : List String) (k : String) :
    rulesD (t ++ [(key, freshNode segs)]) k = rulesD t k
      ∧ icD (t ++ [(key, freshNode segs)]) k = icD t k
      ∧ soD (t ++ [(key, freshNode segs)]) k = soD t k := by
  simp only [rulesD, icD, soD, lookupT_append]
  cases h : lookupT t k with
  | some d => simp
  | none =>
    simp only [lookupT]
    split <;> simp [freshNode]

theorem obs_updateAt_childrenKeys (t : RuleTree) (k : String) (ck : List String → String → List String)
    (s : String) (k' : String) :
    (rulesD (updateAt t k fun d => { d with childrenKeys := ck d.childrenKeys s }) k'
        = rulesD t k')
      ∧ (icD (updateAt t k fun d => { d with childrenKeys := ck d.childrenKeys s }) k'
        = icD t k')
      ∧ (soD (updateAt t k fun d => { d with childrenKeys := ck d.childrenKeys s }) k'
        = soD t k') := by
  simp only [rulesD, icD, soD, lookupT_updateAt]
  split
  · rename_i h
    subst h
    cases lookupT t k' <;> simp
  · exact ⟨rfl, rfl, rfl⟩

/-- `ensureNode`'s recursion touches no default-read observation: it only
inserts fresh nodes and extends `childrenKeys`. -/
theorem ensureRev_obs (t : RuleTree) :
    ∀ (rsegs : List String) (k : String),
      rulesD (ensureRev t rsegs) k = rulesD t k
        ∧ icD (ensureRev t rsegs) k = icD t k
        ∧ soD (ensureRev t rsegs) k = soD t k := by
  intro rsegs
  induction rsegs generalizing t with
  | nil =>
    intro k
    simp only [ensureRev]
    split
    · exact ⟨rfl, rfl, rfl⟩
    · exact obs_append_fresh t "" [] k
  | cons s rest ih =>
    intro k
    simp only [ensureRev]
    split
    · exact ⟨rfl, rfl, rfl⟩
    · have h1 := obs_append_fresh t (joinSegs ((s :: rest).reverse)) ((s :: rest).reverse) k
      have h2 := ih (t ++ [(joinSegs ((s :: rest).reverse), freshNode ((s :: rest).reverse))]) k
      have h3 := obs_updateAt_childrenKeys
        (ensureRev (t ++ [(joinSegs ((s :: rest).reverse), freshNode ((s :: rest).reverse))]) rest)
        (joinSegs rest.reverse) addChildKey s k
      exact ⟨h3.1.trans (h2.1.trans h1.1), h3.2.1.trans (h2.2.1.trans h1.2.1),
        h3.2.2.trans (h2.2.2.trans h1.2.2)⟩

theorem hasKey_append_mono (t : RuleTree) (e : String × NodeData) (k : String)
    (h : hasKey t k = true) : hasKey (t ++ [e]) k = true := by
  simp only [hasKey, lookupT_append] at *
  cases hl : lookupT t k with
  | some d => simp
  | none => rw [hl] at h; simp at h

theorem hasKey_updateAt (t : RuleTree) (k : String) (g : NodeData → NodeData) (k' : String) :
    hasKey (updateAt t k g) k' = hasKey t k' := by
  simp only [hasKey, lookupT_updateAt]
  split
  · rename_i h
    subst h
    cases lookupT t k' <;> simp
  · rfl

theorem ensureRev_hasKey_mono (t : RuleTree) :
    ∀ (rsegs : List String) (k : String), hasKey t k = true →
      hasKey (ensureRev t rsegs) k = true := by
  intro rsegs
  induction rsegs generalizing t with
  | nil =>
    intro k h
    simp only [ensureRev]
    split
    · exact h
    · exact hasKey_append_mono t _ k h
  | cons s rest ih =>
    intro k h
    simp only [ensureRev]
    split
    · exact h
    · rw [hasKey_updateAt]
      exact ih _ k (hasKey_append_mono t _ k h)

/-- After `ensureNode`'s recursion the requested key is present. -/
theorem ensureRev_hasKey_self (t : RuleTree) :
    ∀ rsegs : List String, hasKey (ensureRev t rsegs) (joinSegs rsegs.reverse) = true := by
  intro rsegs
  cases rsegs with
  | nil =>
    simp only [ensureRev]
    split
    · rename_i h
      simpa [joinSegs] using h
    · simp [hasKey, lookupT_append, joinSegs]
      cases hl : lookupT t "" with
      | some d => simp [lookupT]
      | none => simp [lookupT]
  | cons s rest =>
    simp only [ensureRev]
    split
    · rename_i h
      exact h
    · rw [hasKey_updateAt]
      apply ensureRev_hasKey_mono
      simp only [hasKey, lookupT_append]
      cases hl : lookupT t (joinSegs ((s :: rest).reverse)) with
      | some d => simp
      | none => simp [lookupT]

/-! ### How one placed file changes the observations -/

theorem ensureNode_obs (t : RuleTree) (fr : String) (k : String) :
    rulesD (ensureNode t fr) k = rulesD t k
      ∧ icD (ensureNode t fr) k = icD t k
      ∧ soD (ensureNode t fr) k = soD t k := by
  unfold ensureNode
  split
  · exact ensureRev_obs t [] k
  · exact ensureRev_obs t (segsOf (toPosix fr)).reverse k

theorem ensureNode_hasKey (t : RuleTree) (fr : String) :
    hasKey (ensureNode t fr) (if fr = "" then "" else toPosix fr) = true := by
  unfold ensureNode
  by_cases h : fr = ""
  · rw [if_pos h, if_pos h]
    have := ensureRev_hasKey_self t []
    simpa [joinSegs] using this
  · rw [if_neg h, if_neg h]
    have := ensureRev_hasKey_self t (segsOf (toPosix fr)).reverse
    rwa [List.reverse_reverse, joinSegs_segsOf] at this

/-- The node object mutated by the loop body: it exists after `ensureNode`
and carries the folder's previous observations. -/
theorem place_lookup_self (t : RuleTree) (f : MDFile) :
    ∃ d0, lookupT (ensureNode t (folderRelOf f)) (folderKeyOf f) = some d0
      ∧ d0.rules = rulesD t (folderKeyOf f)
      ∧ d0.indexContent = icD t (folderKeyOf f)
      ∧ d0.sectionOrder = soD t (folderKeyOf f) := by
  have hk : hasKey (ensureNode t (folderRelOf f)) (folderKeyOf f) = true :=
    ensureNode_hasKey t (folderRelOf f)
  rw [hasKey, Option.isSome_iff_exists] at hk
  obtain ⟨d0, hd0⟩ := hk
  have hobs := ensureNode_obs t (folderRelOf f) (folderKeyOf f)
  refine ⟨d0, hd0, ?_, ?_, ?_⟩
  · rw [← hobs.1, rulesD, hd0]; rfl
  · rw [← hobs.2.1, icD, hd0]; rfl
  · rw [← hobs.2.2, soD, hd0]; rfl

/-- Placing a file leaves every other key's observations unchanged. -/
theorem place_obs_other (t : RuleTree) (f : MDFile) (k : String)
    (h : k ≠ folderKeyOf f) :
    rulesD (place t f) k = rulesD t k
      ∧ icD (place t f) k = icD t k
      ∧ soD (place t f) k = soD t k := by
  have hobs := ensureNode_obs t (folderRelOf f) k
  unfold place
  rw [rulesD, icD, soD, lookupT_updateAt, if_neg h]
  exact hobs

/-- Placing a non-index file replaces the folder's rule keyed by the base
name: every rule with that `fileName` is removed and, unless disabled, the
new record is appended at the end. -/
theorem place_rules_rule (t : RuleTree) (f : MDFile)
    (hni : isIndexFile (fileNameOf f) = false) :
    rulesD (place t f) (folderKeyOf f)
      = ((rulesD t (folderKeyOf f)).filter fun r => r.fileName ≠ baseOf f)
          ++ (if disabledOf f then []
              else [mkRule (baseOf f) (jsTrim f.body) (f.fm.order.getD 0)]) := by
  obtain ⟨d0, hd0, hr, -, -⟩ := place_lookup_self t f
  unfold place
  rw [rulesD, lookupT_updateAt, if_pos rfl, hd0, Option.map_some', Option.map_some',
    Option.getD_some, placeData, if_neg (by simp [hni])]
  simp only []
  rw [hr]

/-- Placing a non-index file does not change the folder's index data. -/
theorem place_icso_rule (t : RuleTree) (f : MDFile)
    (hni : isIndexFile (fileNameOf f) = false) :
    icD (place t f) (folderKeyOf f) = icD t (folderKeyOf f)
      ∧ soD (place t f) (folderKeyOf f) = soD t (folderKeyOf f) := by
  obtain ⟨d0, hd0, -, hic, hso⟩ := place_lookup_self t f
  unfold place
  rw [icD, soD, lookupT_updateAt, if_pos rfl, hd0, Option.map_some', Option.map_some',
    Option.map_some', Option.getD_some, Option.getD_some, placeData,
    if_neg (by simp [hni])]
  exact ⟨hic, hso⟩

/-- Placing an `_index` file overwrites (or, when disabled, clears) the
folder's index content and section order. -/
theorem place_icso_index (t : RuleTree) (f : MDFile)
    (hi : isIndexFile (fileNameOf f) = true) :
    icD (place t f) (folderKeyOf f) = (if disabledOf f then none else some (jsTrim f.body))
      ∧ soD (place t f) (folderKeyOf f) = (if disabledOf f then none else f.fm.order) := by
  obtain ⟨d0, hd0, -, -, -⟩ := place_lookup_self t f
  unfold place
  rw [icD, soD, lookupT_updateAt, if_pos rfl, hd0, Option.map_some', Option.map_some',
    Option.map_some', Option.getD_some, Option.getD_some, placeData, if_pos hi]
  exact ⟨rfl, rfl⟩

/-- Placing an `_index` file does not change the folder's rules. -/
theorem place_rules_index (t : RuleTree) (f : MDFile)
    (hi : isIndexFile (fileNameOf f) = true) :
    rulesD (place t f) (folderKeyOf f) = rulesD t (folderKeyOf f) := by
  obtain ⟨d0, hd0, hr, -, -⟩ := place_lookup_self t f
  unfold place
  rw [rulesD, lookupT_updateAt, if_pos rfl, hd0, Option.map_some', Option.map_some',
    Option.getD_some, placeData, if_pos hi]
  exact hr

/-! ### Claim C10 — case-sensitive override matching -/

/-- The file name read from a placed file depends only on its relative
path, not on its front matter or body. -/
theorem fileNameOf_mk (r : String) (fm : FrontMatter) (b : String) :
    fileNameOf ⟨r, fm, b⟩ = fileNameOf ⟨r, ⟨none, none⟩, ""⟩ := rfl

theorem baseOf_mk (r : String) (fm : FrontMatter) (b : String) :
    baseOf ⟨r, fm, b⟩ = baseOf ⟨r, ⟨none, none⟩, ""⟩ := rfl

theorem folderKeyOf_mk (r : String) (fm : FrontMatter) (b : String) :
    folderKeyOf ⟨r, fm, b⟩ = folderKeyOf ⟨r, ⟨none, none⟩, ""⟩ := rfl

theorem filter_ne_pair (l : List Rule) (a b : String) :
    ((l.filter fun r => r.fileName ≠ a).filter fun r => r.fileName ≠ b)
      = l.filter fun r => r.fileName ≠ a ∧ r.fileName ≠ b := by
  rw [List.filter_filter]
  apply List.filter_congr
  intro x _
  simp [Bool.decide_and, Bool.and_comm]

theorem filter_singleton_ne (a b body : String) (ord : Int) (h : a ≠ b) :
    ([mkRule a body ord].filter fun r => r.fileName ≠ b) = [mkRule a body ord] := by
  simp [mkRule, h]

set_option maxHeartbeats 1000000 in
/-- Claim C10: within a folder, override matching compares base names
case-sensitively (`rule.fileName !== baseName`) while only the `.md`
extension is stripped case-insensitively (`replace(/\.md$/i, '')`).
Processing `d/Foo.md` after `d/foo.md` removes nothing: the folder keeps
every previous rule not named `foo`/`Foo` and both new rules coexist, in
processing order.  The trailing equations exhibit the case-insensitive
(and only-the-extension) stripping. -/
theorem C10_case_sensitive_override :
    (∀ (t : RuleTree) (fm1 fm2 : FrontMatter) (b1 b2 : String),
        fm1.enabled ≠ some false → fm2.enabled ≠ some false →
        rulesD (place (place t ⟨"d/foo.md", fm1, b1⟩) ⟨"d/Foo.md", fm2, b2⟩) "d"
          = ((rulesD t "d").filter fun r => r.fileName ≠ "foo" ∧ r.fileName ≠ "Foo")
              ++ [mkRule "foo" (jsTrim b1) (fm1.order.getD 0),
                  mkRule "Foo" (jsTrim b2) (fm2.order.getD 0)])
    ∧ baseNameOf "Foo.MD" = "Foo" ∧ baseNameOf "Foo.mD" = "Foo"
      ∧ baseNameOf "foo.md" = "foo" ∧ baseNameOf "a.md.md" = "a.md" := by
  refine ⟨?_, by decide, by decide, by decide, by decide⟩
  intro t fm1 fm2 b1 b2 h1 h2
  have k1 : folderKeyOf (⟨"d/foo.md", fm1, b1⟩ : MDFile) = "d" := by
    rw [folderKeyOf_mk]; decide
  have k2 : folderKeyOf (⟨"d/Foo.md", fm2, b2⟩ : MDFile) = "d" := by
    rw [folderKeyOf_mk]; decide
  have r2 := place_rules_rule (place t ⟨"d/foo.md", fm1, b1⟩) ⟨"d/Foo.md", fm2, b2⟩
    (by rw [fileNameOf_mk]; decide)
  have r1 := place_rules_rule t ⟨"d/foo.md", fm1, b1⟩ (by rw [fileNameOf_mk]; decide)
  rw [k2] at r2
  rw [k1] at r1
  have hd1 : ¬ disabledOf (⟨"d/foo.md", fm1, b1⟩ : MDFile) := h1
  have hd2 : ¬ disabledOf (⟨"d/Foo.md", fm2, b2⟩ : MDFile) := h2
  rw [if_neg hd1] at r1
  rw [if_neg hd2] at r2
  have hbase1 : baseOf (⟨"d/foo.md", fm1, b1⟩ : MDFile) = "foo" := by
    rw [baseOf_mk]; decide
  have hbase2 : baseOf (⟨"d/Foo.md", fm2, b2⟩ : MDFile) = "Foo" := by
    rw [baseOf_mk]; decide
  rw [hbase2] at r2
  rw [hbase1] at r1
  rw [r2, r1, List.filter_append, filter_ne_pair,
    filter_singleton_ne "foo" "Foo" (jsTrim b1) (fm1.order.getD 0) (by decide),
    List.append_assoc, List.singleton_append]

/-! ### Claim C1 — the override law across sources -/

/-- Two files hit the same slot of the tree: same folder node, and either
both are index files (they fight over `indexContent`/`sectionOrder`) or
both are rule files with the same base name. -/
def sameKey (f g : MDFile) : Prop :=
  folderKeyOf f = folderKeyOf g
    ∧ ((isIndexFile (fileNameOf f) = true ∧ isIndexFile (fileNameOf g) = true)
        ∨ (isIndexFile (fileNameOf f) = false ∧ isIndexFile (fileNameOf g) = false
            ∧ baseOf f = baseOf g))

theorem filter_ne_then_eq (l : List Rule) (b : String) :
    ((l.filter fun r => r.fileName ≠ b).filter fun r => r.fileName = b) = [] := by
  induction l with
  | nil => simp
  | cons x xs ih =>
    by_cases hx : x.fileName = b
    · simp [hx, ih]
    · simp [hx, ih]

theorem filter_ne_other_eq (l : List Rule) (a b : String) (h : b ≠ a) :
    ((l.filter fun r => r.fileName ≠ a).filter fun r => r.fileName = b)
      = l.filter fun r => r.fileName = b := by
  rw [List.filter_filter]
  apply List.filter_congr
  intro x _
  by_cases hxb : x.fileName = b
  · have hxa : ¬ x.fileName = a := by rw [hxb]; exact h
    simp [hxb, hxa, h]
  · simp [hxb]

/-- After placing a non-index file, the folder's rules keyed by its base
name are exactly the new record (or nothing when disabled). -/
theorem place_set_rule (t : RuleTree) (f : MDFile)
    (hni : isIndexFile (fileNameOf f) = false) :
    ((rulesD (place t f) (folderKeyOf f)).filter fun r => r.fileName = baseOf f)
      = if disabledOf f then []
        else [mkRule (baseOf f) (jsTrim f.body) (f.fm.order.getD 0)] := by
  rw [place_rules_rule t f hni, List.filter_append, filter_ne_then_eq, List.nil_append]
  by_cases hd : disabledOf f
  · simp [hd]
  · simp [hd, mkRule]

/-- Placing a file with a different slot does not disturb the rules a
non-index file `f` is keyed on. -/
theorem place_preserve_rule (t : RuleTree) (f g : MDFile)
    (hni : isIndexFile (fileNameOf f) = false) (h : ¬ sameKey f g) :
    ((rulesD (place t g) (folderKeyOf f)).filter fun r => r.fileName = baseOf f)
      = (rulesD t (folderKeyOf f)).filter fun r => r.fileName = baseOf f := by
  by_cases hk : folderKeyOf f = folderKeyOf g
  · cases hgi : isIndexFile (fileNameOf g) with
    | true =>
      rw [hk, place_rules_index t g hgi]
    | false =>
      have hbne : baseOf f ≠ baseOf g := by
        intro hb
        exact h ⟨hk, Or.inr ⟨hni, hgi, hb⟩⟩
      rw [hk, place_rules_rule t g hgi, List.filter_append,
        filter_ne_other_eq _ _ _ hbne]
      by_cases hd : disabledOf g
      · simp [hd]
      · have hmk : ¬ (mkRule (baseOf g) (jsTrim g.body) (g.fm.order.getD 0)).fileName
            = baseOf f := by
          simp only [mkRule]
          exact fun hc => hbne hc.symm
        simp [hd, hmk]
  · exact congrArg (List.filter _) (place_obs_other t g (folderKeyOf f) hk).1

/-- Placing a file with a different slot does not disturb the index data a
folder index file `f` is keyed on. -/
theorem place_preserve_index (t : RuleTree) (f g : MDFile)
    (hi : isIndexFile (fileNameOf f) = true) (h : ¬ sameKey f g) :
    icD (place t g) (folderKeyOf f) = icD t (folderKeyOf f)
      ∧ soD (place t g) (folderKeyOf f) = soD t (folderKeyOf f) := by
  by_cases hk : folderKeyOf f = folderKeyOf g
  · cases hgi : isIndexFile (fileNameOf g) with
    | true => exact absurd ⟨hk, Or.inl ⟨hi, hgi⟩⟩ h
    | false =>
      rw [hk]
      exact place_icso_rule t g hgi
  · have hobs := place_obs_other t g (folderKeyOf f) hk
    exact ⟨hobs.2.1, hobs.2.2⟩

theorem foldl_preserve_rule (f : MDFile) (hni : isIndexFile (fileNameOf f) = false) :
    ∀ (l : List MDFile) (t : RuleTree), (∀ g ∈ l, ¬ sameKey f g) →
      ((rulesD (l.foldl place t) (folderKeyOf f)).filter fun r => r.fileName = baseOf f)
        = (rulesD t (folderKeyOf f)).filter fun r => r.fileName = baseOf f := by
  intro l
  induction l with
  | nil => intro t _; rfl
  | cons g gs ih =>
    intro t hall
    rw [List.foldl_cons, ih (place t g) (fun x hx => hall x (List.mem_cons_of_mem g hx)),
      place_preserve_rule t f g hni (hall g (List.mem_cons_self g gs))]

theorem foldl_preserve_index (f : MDFile) (hi : isIndexFile (fileNameOf f) = true) :
    ∀ (l : List MDFile) (t : RuleTree), (∀ g ∈ l, ¬ sameKey f g) →
      icD (l.foldl place t) (folderKeyOf f) = icD t (folderKeyOf f)
        ∧ soD (l.foldl place t) (folderKeyOf f) = soD t (folderKeyOf f) := by
  intro l
  induction l with
  | nil => intro t _; exact ⟨rfl, rfl⟩
  | cons g gs ih =>
    intro t hall
    have h1 := place_preserve_index t f g hi (hall g (List.mem_cons_self g gs))
    have h2 := ih (place t g) fun x hx => hall x (List.mem_cons_of_mem g hx)
    rw [List.foldl_cons]
    exact ⟨h2.1.trans h1.1, h2.2.trans h1.2⟩

/-- Claim C1, the override law: sources are folded in declared order into
one shared tree, so when the second source supplies a file `f` at a
relative path the first source also supplied (and no later file of the
second source hits the same slot), the final tree carries exactly `f`'s
version — its rule record for a rule file, its index data for an `_index`
file — and a disabled `f` leaves nothing: the earlier source's rule (or
index data) is removed. -/
theorem C1_override_law (t0 : RuleTree) (src1 : NormalizedRulesSource)
    (files1 : List MDFile) (src2 : NormalizedRulesSource) (files2 : List MDFile)
    (f : MDFile) (l1 l2 : List MDFile)
    (hsplit : (files2.filter fun g => includedB src2 g.rel) = l1 ++ f :: l2)
    (hlast : ∀ g ∈ l2, ¬ sameKey f g)
    (_hoverlap : ∃ f1 ∈ files1, f1.rel = f.rel ∧ includedB src1 f1.rel = true) :
    (isIndexFile (fileNameOf f) = false →
      ((rulesD (appendDirectoryToTree (appendDirectoryToTree t0 src1 files1) src2 files2)
          (folderKeyOf f)).filter fun r => r.fileName = baseOf f)
        = if disabledOf f then []
          else [mkRule (baseOf f) (jsTrim f.body) (f.fm.order.getD 0)])
    ∧ (isIndexFile (fileNameOf f) = true →
      icD (appendDirectoryToTree (appendDirectoryToTree t0 src1 files1) src2 files2)
          (folderKeyOf f)
        = (if disabledOf f then none else some (jsTrim f.body))
      ∧ soD (appendDirectoryToTree (appendDirectoryToTree t0 src1 files1) src2 files2)
          (folderKeyOf f)
        = (if disabledOf f then none else f.fm.order)) := by
  have hfold : appendDirectoryToTree (appendDirectoryToTree t0 src1 files1) src2 files2
      = l2.foldl place (place (l1.foldl place (appendDirectoryToTree t0 src1 files1)) f) := by
    rw [appendDirectoryToTree, hsplit, List.foldl_append, List.foldl_cons]
  constructor
  · intro hni
    rw [hfold, foldl_preserve_rule f hni l2 _ hlast, place_set_rule _ f hni]
  · intro hi
    have hp := foldl_preserve_index f hi l2
      (place (l1.foldl place (appendDirectoryToTree t0 src1 files1)) f) hlast
    have hs := place_icso_index (l1.foldl place (appendDirectoryToTree t0 src1 files1)) f hi
    rw [hfold]
    exact ⟨hp.1.trans hs.1, hp.2.trans hs.2⟩

set_option maxHeartbeats 1000000 in
/-- Witness for the override law: two one-file sources both supplying
`a/x.md`; the final tree carries the second source's rule. -/
theorem C1_override_law_witness :
    ((rulesD (appendDirectoryToTree (appendDirectoryToTree [] ⟨true, [], []⟩
        [⟨"a/x.md", ⟨none, some 1⟩, " old "⟩]) ⟨true, [], []⟩
        [⟨"a/x.md", ⟨none, some 2⟩, " new "⟩]) "a").filter fun r => r.fileName = "x")
      = [mkRule "x" "new" 2] := by
  have h := C1_override_law [] ⟨true, [], []⟩ [⟨"a/x.md", ⟨none, some 1⟩, " old "⟩]
    ⟨true, [], []⟩ [⟨"a/x.md", ⟨none, some 2⟩, " new "⟩]
    ⟨"a/x.md", ⟨none, some 2⟩, " new "⟩ [] []
    (by decide) (by intro g hg; cases hg)
    ⟨⟨"a/x.md", ⟨none, some 1⟩, " old "⟩, by decide, rfl, by decide⟩
  have h2 := h.1 (by decide)
  have e1 : folderKeyOf (⟨"a/x.md", ⟨none, some 2⟩, " new "⟩ : MDFile) = "a" := by decide
  have e2 : baseOf (⟨"a/x.md", ⟨none, some 2⟩, " new "⟩ : MDFile) = "x" := by decide
  have e3 : (if disabledOf (⟨"a/x.md", ⟨none, some 2⟩, " new "⟩ : MDFile)
        then ([] : List Rule)
        else [mkRule (baseOf (⟨"a/x.md", ⟨none, some 2⟩, " new "⟩ : MDFile))
          (jsTrim (⟨"a/x.md", ⟨none, some 2⟩, " new "⟩ : MDFile).body)
          ((⟨"a/x.md", ⟨none, some 2⟩, " new "⟩ : MDFile).fm.order.getD 0)])
      = [mkRule "x" "new" 2] := by decide
  rw [e1, e3, e2] at h2
  exact h2

/-! ### Order theory for the sort comparators -/

theorem natCmp_swap (a b : Nat) : natCmp a b = (natCmp b a).swap := by
  unfold natCmp
  split_ifs <;> first | rfl | omega

theorem natCmp_eq_iff (a b : Nat) : natCmp a b = .eq ↔ a = b := by
  unfold natCmp
  split_ifs with h1 h2
  · exact ⟨(fun h => by cases h), (fun h => by omega)⟩
  · exact ⟨(fun h => by cases h), (fun h => by omega)⟩
  · exact ⟨(fun _ => by omega), (fun _ => rfl)⟩

theorem natCmp_lt_iff (a b : Nat) : natCmp a b = .lt ↔ a < b := by
  unfold natCmp
  split_ifs with h1 h2
  · exact ⟨fun _ => h1, fun _ => rfl⟩
  · exact ⟨(fun h => by cases h), (fun h => by omega)⟩
  · exact ⟨(fun h => by cases h), (fun h => by omega)⟩

theorem lexNat_eq_iff : ∀ x y : List Nat, lexNat x y = .eq ↔ x = y
  | [], [] => by simp [lexNat]
  | [], _ :: _ => by simp [lexNat]
  | _ :: _, [] => by simp [lexNat]
  | a :: as, b :: bs => by
    simp only [lexNat]
    cases h : natCmp a b with
    | eq =>
      have hab : a = b := (natCmp_eq_iff a b).mp h
      subst hab
      rw [lexNat_eq_iff as bs]
      constructor
      · intro h2; rw [h2]
      · intro h2; injection h2
    | lt =>
      constructor
      · intro h2; cases h2
      · intro h2
        injection h2 with h3 h4
        subst h3
        rw [(natCmp_eq_iff a a).mpr rfl] at h
        cases h
    | gt =>
      constructor
      · intro h2; cases h2
      · intro h2
        injection h2 with h3 h4
        subst h3
        rw [(natCmp_eq_iff a a).mpr rfl] at h
        cases h

theorem lexNat_swap : ∀ x y : List Nat, lexNat x y = (lexNat y x).swap
  | [], [] => rfl
  | [], _ :: _ => rfl
  | _ :: _, [] => rfl
  | a :: as, b :: bs => by
    simp only [lexNat]
    rw [natCmp_swap a b]
    cases natCmp b a with
    | eq => exact lexNat_swap as bs
    | lt => rfl
    | gt => rfl

theorem lexNat_lt_trans :
    ∀ x y z : List Nat, lexNat x y = .lt → lexNat y z = .lt → lexNat x z = .lt
  | [], y, z => by
    intro h1 h2
    cases y with
    | nil => simp [lexNat] at h1
    | cons b bs =>
      cases z with
      | nil => simp [lexNat] at h2
      | cons c cs => rfl
  | a :: as, [], z => by
    intro h1 _
    simp [lexNat] at h1
  | a :: as, b :: bs, [] => by
    intro _ h2
    simp [lexNat] at h2
  | a :: as, b :: bs, c :: cs => by
    intro h1 h2
    simp only [lexNat] at *
    cases hab : natCmp a b with
    | gt => rw [hab] at h1; cases h1
    | lt =>
      have hab2 : a < b := (natCmp_lt_iff a b).mp hab
      cases hbc : natCmp b c with
      | gt => rw [hbc] at h2; cases h2
      | lt =>
        have hbc2 : b < c := (natCmp_lt_iff b c).mp hbc
        rw [(natCmp_lt_iff a c).mpr (by omega)]
      | eq =>
        have hbc2 : b = c := (natCmp_eq_iff b c).mp hbc
        rw [(natCmp_lt_iff a c).mpr (by omega)]
    | eq =>
      have hab2 : a = b := (natCmp_eq_iff a b).mp hab
      rw [hab] at h1
      cases hbc : natCmp b c with
      | gt => rw [hbc] at h2; cases h2
      | lt =>
        have hbc2 : b < c := (natCmp_lt_iff b c).mp hbc
        rw [(natCmp_lt_iff a c).mpr (by omega)]
      | eq =>
        have hbc2 : b = c := (natCmp_eq_iff b c).mp hbc
        rw [hbc] at h2
        subst hab2
        subst hbc2
        rw [(natCmp_eq_iff a a).mpr rfl]
        exact lexNat_lt_trans as bs cs h1 h2

theorem ucaCmp_swap (a b : String) : ucaCmp a b = (ucaCmp b a).swap := by
  unfold ucaCmp
  rw [lexNat_swap (a.data.map primW) (b.data.map primW),
    lexNat_swap (a.data.map tertW) (b.data.map tertW)]
  cases lexNat (b.data.map primW) (a.data.map primW) <;> rfl

theorem localeCompare_swap (a b : String) : localeCompare a b = - localeCompare b a := by
  unfold localeCompare
  rw [ucaCmp_swap]
  cases ucaCmp b a <;> rfl

theorem ordToInt_le_zero (o : Ordering) : ordToInt o ≤ 0 ↔ o ≠ .gt := by
  cases o <;> simp [ordToInt]

theorem ucaCmp_not_gt_trans (a b c : String) :
    ucaCmp a b ≠ .gt → ucaCmp b c ≠ .gt → ucaCmp a c ≠ .gt := by
  intro h1 h2
  unfold ucaCmp at *
  cases hab : lexNat (a.data.map primW) (b.data.map primW) with
  | gt => rw [hab] at h1; exact absurd rfl h1
  | lt =>
    cases hbc : lexNat (b.data.map primW) (c.data.map primW) with
    | gt => rw [hbc] at h2; exact absurd rfl h2
    | lt =>
      rw [lexNat_lt_trans _ _ _ hab hbc]
      simp
    | eq =>
      have he : b.data.map primW = c.data.map primW := (lexNat_eq_iff _ _).mp hbc
      rw [← he, hab]
      simp
  | eq =>
    have he : a.data.map primW = b.data.map primW := (lexNat_eq_iff _ _).mp hab
    rw [hab] at h1
    cases hbc : lexNat (b.data.map primW) (c.data.map primW) with
    | gt => rw [hbc] at h2; exact absurd rfl h2
    | lt =>
      rw [he, hbc]
      simp
    | eq =>
      have he2 : b.data.map primW = c.data.map primW := (lexNat_eq_iff _ _).mp hbc
      rw [hbc] at h2
      rw [he, he2, (lexNat_eq_iff _ _).mpr rfl]
      cases tab : lexNat (a.data.map tertW) (b.data.map tertW) with
      | gt => rw [tab] at h1; exact absurd rfl h1
      | lt =>
        cases tbc : lexNat (b.data.map tertW) (c.data.map tertW) with
        | gt => rw [tbc] at h2; exact absurd rfl h2
        | lt =>
          rw [lexNat_lt_trans _ _ _ tab tbc]
          simp
        | eq =>
          have te : b.data.map tertW = c.data.map tertW := (lexNat_eq_iff _ _).mp tbc
          rw [← te, tab]
          simp
      | eq =>
        have te : a.data.map tertW = b.data.map tertW := (lexNat_eq_iff _ _).mp tab
        rw [te]
        exact h2

theorem localeCompare_le_trans (a b c : String) :
    localeCompare a b ≤ 0 → localeCompare b c ≤ 0 → localeCompare a c ≤ 0 := by
  intro h1 h2
  rw [localeCompare, ordToInt_le_zero] at *
  exact ucaCmp_not_gt_trans a b c h1 h2

theorem localeCompare_total (a b : String) :
    localeCompare a b ≤ 0 ∨ localeCompare b a ≤ 0 := by
  rw [localeCompare_swap]
  omega

instance : IsTotal Rule ruleLe where
  total := by
    intro a b
    unfold ruleLe ruleCmp
    by_cases h : a.order - b.order = 0
    · rw [if_pos h, if_pos (by omega : b.order - a.order = 0)]
      exact localeCompare_total a.fileName b.fileName
    · rw [if_neg h, if_neg (by omega : ¬ b.order - a.order = 0)]
      omega

instance : IsTrans Rule ruleLe where
  trans := by
    intro a b c hab hbc
    unfold ruleLe ruleCmp at *
    by_cases h1 : a.order - b.order = 0 <;> by_cases h2 : b.order - c.order = 0
    · rw [if_pos h1] at hab
      rw [if_pos h2] at hbc
      rw [if_pos (by omega : a.order - c.order = 0)]
      exact localeCompare_le_trans _ _ _ hab hbc
    · rw [if_pos h1] at hab
      rw [if_neg h2] at hbc
      rw [if_neg (by omega : ¬ a.order - c.order = 0)]
      omega
    · rw [if_neg h1] at hab
      rw [if_pos h2] at hbc
      rw [if_neg (by omega : ¬ a.order - c.order = 0)]
      omega
    · rw [if_neg h1] at hab
      rw [if_neg h2] at hbc
      rw [if_neg (by omega : ¬ a.order - c.order = 0)]
      omega

instance : IsTotal (String × SectionNode) childLe where
  total := by
    intro a b
    unfold childLe childCmp
    rcases ha : a.2.sectionOrder with _ | x <;> rcases hb : b.2.sectionOrder with _ | y <;>
      dsimp only
    · exact localeCompare_total a.1 b.1
    · right; omega
    · left; omega
    · by_cases h : x - y = 0
      · rw [if_pos h, if_pos (by omega : y - x = 0)]
        exact localeCompare_total a.1 b.1
      · rw [if_neg h, if_neg (by omega : ¬ y - x = 0)]
        omega

instance : IsTrans (String × SectionNode) childLe where
  trans := by
    intro a b c hab hbc
    unfold childLe childCmp at *
    rcases ha : a.2.sectionOrder with _ | x <;> rcases hb : b.2.sectionOrder with _ | y <;>
      rcases hc : c.2.sectionOrder with _ | z <;>
      rw [ha, hb] at hab <;> rw [hb, hc] at hbc <;> dsimp only at hab hbc ⊢
    · exact localeCompare_le_trans _ _ _ hab hbc
    · omega
    · omega
    · omega
    · omega
    · omega
    · omega
    · by_cases h1 : x - y = 0 <;> by_cases h2 : y - z = 0
      · rw [if_pos h1] at hab
        rw [if_pos h2] at hbc
        rw [if_pos (by omega : x - z = 0)]
        exact localeCompare_le_trans _ _ _ hab hbc
      · rw [if_pos h1] at hab
        rw [if_neg h2] at hbc
        rw [if_neg (by omega : ¬ x - z = 0)]
        omega
      · rw [if_neg h1] at hab
        rw [if_pos h2] at hbc
        rw [if_neg (by omega : ¬ x - z = 0)]
        omega
      · rw [if_neg h1] at hab
        rw [if_neg h2] at hbc
        rw [if_neg (by omega : ¬ x - z = 0)]
        omega

/-! ### Claims C3 and C4 — sibling ordering -/

/-- Case-sensitive lexical (code-point) order on strings, the order the
spec's claim names for tie-breaking. -/
def codePointLt (a b : String) : Prop :=
  lexNat (a.data.map Char.toNat) (b.data.map Char.toNat) = .lt

instance (a b : String) : Decidable (codePointLt a b) := by
  unfold codePointLt; infer_instance

/-- Claim C3 as stated is false on the code: the tie-break for equal
`order` values is `localeCompare`, a locale-aware (ICU root) comparison,
not a code-point comparison.  With two rules of equal order named `B` and
`a`, the sort puts `a` first (locale order), while code-point order would
demand `B` first (`'B' < 'a'`): the sorted output is not ascending under
the code-point order the claim names. -/
theorem C3_counterexample_locale_not_codepoint :
    (sortTreeChildren (SectionNode.node "" "" 0 none none
        [⟨"", "B", 0, ""⟩, ⟨"", "a", 0, ""⟩] [])).rules
      = [⟨"", "a", 0, ""⟩, ⟨"", "B", 0, ""⟩]
    ∧ ¬ List.Pairwise
        (fun a b : Rule => codePointLt a.fileName b.fileName ∨ a.fileName = b.fileName)
        [(⟨"", "a", 0, ""⟩ : Rule), ⟨"", "B", 0, ""⟩]
    ∧ codePointLt "B" "a" := by
  refine ⟨by decide, by decide, by decide⟩

/-- Claim C3, amended: after sorting, a node's rule files are ascending in
`order`, and rules of equal `order` are ascending in file name under the
code's locale-aware comparison (modelled by `localeCompare`: ASCII
case-insensitive primary level, lower case before upper case on ties),
which coincides with code-point order for names of uniform case. -/
theorem C3_rule_order_amended (n : SectionNode) :
    List.Pairwise (fun a b : Rule => a.order < b.order
        ∨ (a.order = b.order ∧ localeCompare a.fileName b.fileName ≤ 0))
      (sortTreeChildren n).rules := by
  obtain ⟨nm, p, d, ic, so, rs, ch⟩ := n
  have hred : (sortTreeChildren (SectionNode.node nm p d ic so rs ch)).rules
      = List.insertionSort ruleLe rs := rfl
  rw [hred]
  have hs : List.Pairwise ruleLe (List.insertionSort ruleLe rs) :=
    List.sorted_insertionSort ruleLe rs
  refine hs.imp ?_
  intro a b hab
  unfold ruleLe ruleCmp at hab
  by_cases h : a.order - b.order = 0
  · rw [if_pos h] at hab
    exact Or.inr ⟨by omega, hab⟩
  · rw [if_neg h] at hab
    exact Or.inl (by omega)

/-- Claim C4: after sorting, every child folder with a numeric
`sectionOrder` precedes every child without one; two children that both
have one are ascending in its value with ties broken by ascending
folder-segment key; two children that both lack one are in ascending
folder-segment-key order (the code's `localeCompare` order). -/
theorem C4_child_folder_order (n : SectionNode) :
    List.Pairwise (fun a b : String × SectionNode =>
        (b.2.sectionOrder.isSome = true → a.2.sectionOrder.isSome = true)
        ∧ (∀ x y : Int, a.2.sectionOrder = some x → b.2.sectionOrder = some y →
            x < y ∨ (x = y ∧ localeCompare a.1 b.1 ≤ 0))
        ∧ (a.2.sectionOrder = none → b.2.sectionOrder = none →
            localeCompare a.1 b.1 ≤ 0))
      (sortTreeChildren n).children := by
  obtain ⟨nm, p, d, ic, so, rs, ch⟩ := n
  have hred : (sortTreeChildren (SectionNode.node nm p d ic so rs ch)).children
      = List.insertionSort childLe (sortChildList ch) := rfl
  rw [hred]
  have hs : List.Pairwise childLe (List.insertionSort childLe (sortChildList ch)) :=
    List.sorted_insertionSort childLe (sortChildList ch)
  refine hs.imp ?_
  intro a b hab
  unfold childLe childCmp at hab
  refine ⟨?_, ?_, ?_⟩
  · intro hbs
    rcases hb : b.2.sectionOrder with _ | y
    · rw [hb] at hbs; cases hbs
    · rcases ha : a.2.sectionOrder with _ | x
      · rw [ha, hb] at hab
        dsimp only at hab
        omega
      · rfl
  · intro x y hx hy
    rw [hx, hy] at hab
    dsimp only at hab
    by_cases h : x - y = 0
    · rw [if_pos h] at hab
      exact Or.inr ⟨by omega, hab⟩
    · rw [if_neg h] at hab
      exact Or.inl (by omega)
  · intro hna hnb
    rw [hna, hnb] at hab
    exact hab

/-! ### Path well-formedness

The relative paths produced by the directory walk are already posix-clean:
no empty segments, no duplicate separators, no backslash pairs
(`walkAllMarkdownFiles` applies `toPosix`, `core.ts:92`).  The builder
claims about node identity therefore assume `relValid` below; the lemmas
in this section show the path round-trips (`join` after `split`,
`toPosix` as a no-op) that such paths enjoy. -/

/-- Two adjacent occurrences of the character `c0`. -/
def hasPairOf (c0 : Char) : List Char → Bool
  | [] => false
  | [_] => false
  | c :: d :: rest => (c = c0 ∧ d = c0) || hasPairOf c0 (d :: rest)

theorem hasDblSlash_eq_hasPairOf : ∀ l : List Char, hasDblSlash l = hasPairOf '/' l
  | [] => rfl
  | [_] => rfl
  | c :: d :: rest => by
    simp only [hasDblSlash, hasPairOf]
    rw [hasDblSlash_eq_hasPairOf (d :: rest)]

theorem hasPairOf_cons_of_ne (c0 c : Char) (l : List Char) (h : c ≠ c0) :
    hasPairOf c0 (c :: l) = hasPairOf c0 l := by
  cases l with
  | nil => simp [hasPairOf]
  | cons d rest => simp [hasPairOf, h]

theorem hasPairOf_cons_false {c0 c : Char} {l : List Char}
    (h : hasPairOf c0 (c :: l) = false) : hasPairOf c0 l = false := by
  cases l with
  | nil => simp [hasPairOf]
  | cons d rest =>
    simp only [hasPairOf, Bool.or_eq_false_iff] at h
    exact h.2

theorem collapseOnce_head : ∀ (d : Char) (rest : List Char),
    ∃ y, collapseOnce (d :: rest) = d :: y := by
  intro d rest
  cases rest with
  | nil => exact ⟨[], rfl⟩
  | cons e rest2 =>
    simp only [collapseOnce]
    split
    · rename_i h
      exact ⟨collapseOnce rest2, by rw [h.1]⟩
    · exact ⟨collapseOnce (e :: rest2), rfl⟩

theorem collapseOnce_noPair : ∀ l : List Char, hasPairOf '\\' l = false →
    hasPairOf '\\' (collapseOnce l) = false
  | [], _ => rfl
  | [c], h => h
  | c :: d :: rest, h => by
    simp only [collapseOnce]
    split
    · rename_i hcd
      obtain ⟨hc, hd⟩ := hcd
      subst hc
      have h2 : hasPairOf '\\' rest = false :=
        hasPairOf_cons_false (hasPairOf_cons_false h)
      have h3 := collapseOnce_noPair rest h2
      cases hr : collapseOnce rest with
      | nil => simp [hasPairOf]
      | cons e y =>
        rw [hr] at h3
        rw [hasPairOf_cons_of_ne _ _ _ (by decide)]
        exact h3
    · have h2 : hasPairOf '\\' (d :: rest) = false := hasPairOf_cons_false h
      have h3 := collapseOnce_noPair (d :: rest) h2
      obtain ⟨y, hy⟩ := collapseOnce_head d rest
      rw [hy] at h3 ⊢
      simp only [hasPairOf, Bool.or_eq_false_iff]
      refine ⟨?_, h3⟩
      simp only [hasPairOf, Bool.or_eq_false_iff] at h
      simpa using h.1

theorem collapseLoop_noPair (fuel : Nat) :
    ∀ l : List Char, hasPairOf '\\' l = false →
      hasPairOf '\\' (collapseLoop fuel l) = false := by
  induction fuel with
  | zero => intro l h; exact h
  | succ n ih =>
    intro l h
    simp only [collapseLoop]
    split
    · exact ih (collapseOnce l) (collapseOnce_noPair l h)
    · exact h

theorem replacePairs_head : ∀ (d : Char) (rest : List Char),
    (∃ y, replacePairs (d :: rest) = d :: y) ∨ ∃ y, replacePairs (d :: rest) = '/' :: y := by
  intro d rest
  cases rest with
  | nil => exact Or.inl ⟨[], rfl⟩
  | cons e rest2 =>
    simp only [replacePairs]
    split
    · exact Or.inr ⟨replacePairs rest2, rfl⟩
    · exact Or.inl ⟨replacePairs (e :: rest2), rfl⟩

theorem replacePairs_noPair : ∀ l : List Char, hasPairOf '\\' (replacePairs l) = false
  | [] => rfl
  | [c] => by simp [replacePairs, hasPairOf]
  | c :: d :: rest => by
    simp only [replacePairs]
    split
    · have h3 := replacePairs_noPair rest
      cases hr : replacePairs rest with
      | nil => simp [hasPairOf]
      | cons e y =>
        rw [hr] at h3
        rw [hasPairOf_cons_of_ne _ _ _ (by decide)]
        exact h3
    · rename_i hcd
      have h3 := replacePairs_noPair (d :: rest)
      rcases replacePairs_head d rest with ⟨y, hy⟩ | ⟨y, hy⟩
      · rw [hy] at h3 ⊢
        simp only [hasPairOf, Bool.or_eq_false_iff]
        refine ⟨?_, h3⟩
        simp only [decide_eq_false_iff_not]
        intro hc
        exact hcd ⟨hc.1, hc.2⟩
      · rw [hy] at h3 ⊢
        simp only [hasPairOf, Bool.or_eq_false_iff]
        refine ⟨?_, h3⟩
        simp

/-- The posix form of any string has no backslash pair left. -/
theorem toPosix_noPair (s : String) : hasPairOf '\\' (toPosix s).data = false := by
  simp only [toPosix]
  exact collapseLoop_noPair _ _ (replacePairs_noPair s.data)

/-- A string without backslash pairs passes through the pair replacement
unchanged. -/
theorem replacePairs_id : ∀ l : List Char, hasPairOf '\\' l = false → replacePairs l = l
  | [], _ => rfl
  | [c], _ => rfl
  | c :: d :: rest, h => by
    simp only [replacePairs]
    rw [if_neg]
    · rw [replacePairs_id (d :: rest) (hasPairOf_cons_false h)]
    · simp only [hasPairOf, Bool.or_eq_false_iff, decide_eq_false_iff_not] at h
      exact h.1

/-- A string without duplicate separators passes through the collapse loop
unchanged. -/
theorem collapseLoop_id (fuel : Nat) (l : List Char) (h : hasDblSlash l = false) :
    collapseLoop fuel l = l := by
  cases fuel with
  | zero => rfl
  | succ n =>
    simp only [collapseLoop]
    rw [if_neg]
    intro hc
    rw [h] at hc
    cases hc

/-- `toPosix` is the identity on posix-clean strings. -/
theorem toPosix_id (s : String) (h1 : hasDblSlash s.data = false)
    (h2 : hasPairOf '\\' s.data = false) : toPosix s = s := by
  simp only [toPosix]
  rw [replacePairs_id s.data h2, collapseLoop_id _ _ h1]

theorem noPair_of_not_mem (c0 : Char) : ∀ l : List Char, c0 ∉ l → hasPairOf c0 l = false
  | [], _ => rfl
  | [c], _ => rfl
  | c :: d :: rest, h => by
    simp only [hasPairOf, Bool.or_eq_false_iff]
    constructor
    · simp only [decide_eq_false_iff_not]
      intro hc
      exact h (by rw [hc.1]; exact List.mem_cons_self c0 _)
    · exact noPair_of_not_mem c0 (d :: rest) fun hm => h (List.mem_cons_of_mem c hm)

theorem hasPairOf_append (c0 : Char) :
    ∀ a b : List Char, hasPairOf c0 a = false → hasPairOf c0 b = false →
      (a = [] ∨ b = [] ∨ ¬(a.getLast? = some c0 ∧ b.head? = some c0)) →
      hasPairOf c0 (a ++ b) = false
  | [], b, _, hb, _ => hb
  | [c], b, ha, hb, hbd => by
    cases b with
    | nil => exact ha
    | cons e b2 =>
      simp only [List.singleton_append, hasPairOf, Bool.or_eq_false_iff]
      refine ⟨?_, hb⟩
      simp only [decide_eq_false_iff_not]
      intro hc
      rcases hbd with h | h | h
      · cases h
      · cases h
      · exact h ⟨by rw [hc.1]; rfl, by rw [hc.2]; rfl⟩
  | c :: d :: rest, b, ha, hb, hbd => by
    simp only [List.cons_append, hasPairOf, Bool.or_eq_false_iff] at *
    refine ⟨ha.1, ?_⟩
    have := hasPairOf_append c0 (d :: rest) b ha.2 hb ?_
    · simpa using this
    · rcases hbd with h | h | h
      · cases h
      · exact Or.inr (Or.inl h)
      · exact Or.inr (Or.inr h)

theorem splitSlash_no_slash : ∀ l : List Char, ∀ g ∈ splitSlash l, '/' ∉ g := by
  intro l
  induction l with
  | nil =>
    intro g hg
    simp only [splitSlash, List.mem_singleton] at hg
    subst hg
    simp
  | cons c rest ih =>
    intro g hg
    simp only [splitSlash] at hg
    split at hg
    · rcases List.mem_cons.mp hg with h | h
      · subst h; simp
      · exact ih g h
    · rename_i hc
      rcases hs : splitSlash rest with _ | ⟨g0, gs⟩
      · exact absurd hs (splitSlash_ne_nil rest)
      · rw [hs] at hg
        rcases List.mem_cons.mp hg with h | h
        · subst h
          intro hm
          rcases List.mem_cons.mp hm with h2 | h2
          · exact hc h2.symm
          · exact ih g0 (by rw [hs]; exact List.mem_cons_self g0 gs) h2
        · exact ih g (by rw [hs]; exact List.mem_cons_of_mem g0 h)

theorem splitSlash_first : ∀ (l : List Char) (e : Char) (g2 : List Char)
    (gs : List (List Char)), splitSlash l = (e :: g2) :: gs → ∃ l2, l = e :: l2 := by
  intro l e g2 gs h
  cases l with
  | nil => simp [splitSlash] at h
  | cons x r2 =>
    simp only [splitSlash] at h
    split at h
    · cases h
    · rcases hs : splitSlash r2 with _ | ⟨g0, gs0⟩
      · exact absurd hs (splitSlash_ne_nil r2)
      · rw [hs] at h
        injection h with h1 h2
        injection h1 with h3 h4
        exact ⟨r2, by rw [h3]⟩

theorem splitSlash_noPair : ∀ l : List Char, hasPairOf '\\' l = false →
    ∀ g ∈ splitSlash l, hasPairOf '\\' g = false := by
  intro l
  induction l with
  | nil =>
    intro _ g hg
    simp only [splitSlash, List.mem_singleton] at hg
    subst hg
    rfl
  | cons c rest ih =>
    intro h g hg
    simp only [splitSlash] at hg
    split at hg
    · rcases List.mem_cons.mp hg with h2 | h2
      · subst h2; rfl
      · exact ih (hasPairOf_cons_false h) g h2
    · rcases hs : splitSlash rest with _ | ⟨g0, gs⟩
      · exact absurd hs (splitSlash_ne_nil rest)
      · rw [hs] at hg
        rcases List.mem_cons.mp hg with h2 | h2
        · subst h2
          cases hg0 : g0 with
          | nil => simp [hasPairOf]
          | cons e g2 =>
            obtain ⟨l2, hl2⟩ := splitSlash_first rest e g2 gs (by rw [hs, hg0])
            have htail : hasPairOf '\\' (e :: g2) = false := by
              have := ih (hasPairOf_cons_false h) g0 (by rw [hs]; exact List.mem_cons_self g0 gs)
              rwa [hg0] at this
            simp only [hasPairOf, Bool.or_eq_false_iff]
            refine ⟨?_, htail⟩
            simp only [decide_eq_false_iff_not]
            intro hc
            rw [hl2] at h
            simp only [hasPairOf, Bool.or_eq_false_iff, decide_eq_false_iff_not] at h
            exact h.1 hc
        · exact ih (hasPairOf_cons_false h) g (by rw [hs]; exact List.mem_cons_of_mem g0 h2)

theorem splitSlash_append : ∀ l1 l2 : List Char, '/' ∉ l1 →
    splitSlash (l1 ++ '/' :: l2) = l1 :: splitSlash l2 := by
  intro l1
  induction l1 with
  | nil => intro l2 _; simp [splitSlash]
  | cons c r ih =>
    intro l2 h
    have hc : c ≠ '/' := fun hc => h (by rw [hc]; exact List.mem_cons_self _ _)
    simp only [List.cons_append, splitSlash, if_neg hc]
    rw [show r.append ('/' :: l2) = r ++ '/' :: l2 from rfl,
      ih l2 fun hm => h (List.mem_cons_of_mem c hm)]

theorem splitSlash_no_sep : ∀ l : List Char, '/' ∉ l → splitSlash l = [l] := by
  intro l
  induction l with
  | nil => intro _; rfl
  | cons c r ih =>
    intro h
    have hc : c ≠ '/' := fun hc => h (by rw [hc]; exact List.mem_cons_self _ _)
    simp only [splitSlash, if_neg hc]
    rw [ih fun hm => h (List.mem_cons_of_mem c hm)]

/-- A well-formed path segment: non-empty, separator-free, and without a
backslash pair (all guaranteed for segments of a walked relative path). -/
def goodSeg (s : String) : Prop :=
  s ≠ "" ∧ '/' ∉ s.data ∧ hasPairOf '\\' s.data = false

/-- All segments well formed. -/
def goodSegs (segs : List String) : Prop := ∀ s ∈ segs, goodSeg s

/-- The walk hands the builder posix-clean relative paths; in the model
this is the assumption that no path segment is empty (separator-freeness
and backslash-pair-freeness hold automatically after `toPosix`). -/
def relValid (r : String) : Prop := ∀ s ∈ segsOf (toPosix r), s ≠ ""

theorem goodSegs_of_relValid (r : String) (h : relValid r) :
    goodSegs (segsOf (toPosix r)) := by
  intro s hs
  refine ⟨h s hs, ?_, ?_⟩
  · simp only [segsOf, List.mem_map] at hs
    obtain ⟨g, hg, rfl⟩ := hs
    exact splitSlash_no_slash _ g hg
  · simp only [segsOf, List.mem_map] at hs
    obtain ⟨g, hg, rfl⟩ := hs
    exact splitSlash_noPair _ (toPosix_noPair r) g hg

theorem goodSegs_sub {segs segs2 : List String} (h : goodSegs segs)
    (hsub : ∀ s ∈ segs2, s ∈ segs) : goodSegs segs2 :=
  fun s hs => h s (hsub s hs)

theorem joinSegs_data_cons_cons (s b : String) (rest : List String) :
    (joinSegs (s :: b :: rest)).data = s.data ++ '/' :: (joinSegs (b :: rest)).data := by
  rw [joinSegs_cons_cons]
  simp [String.data_append]

theorem joinSegs_head (s : String) (rest : List String) (c : Char) (cs : List Char)
    (h : s.data = c :: cs) : ∃ y, (joinSegs (s :: rest)).data = c :: y := by
  cases rest with
  | nil => exact ⟨cs, h⟩
  | cons b r2 =>
    rw [joinSegs_data_cons_cons, h]
    exact ⟨cs ++ '/' :: (joinSegs (b :: r2)).data, rfl⟩

theorem joinSegs_ne_empty (segs : List String) (hne : segs ≠ [])
    (hgood : goodSegs segs) : joinSegs segs ≠ "" := by
  cases segs with
  | nil => exact absurd rfl hne
  | cons s rest =>
    have hs : s ≠ "" := (hgood s (List.mem_cons_self s rest)).1
    have hd : s.data ≠ [] := fun hc => hs (by apply String.ext; simpa using hc)
    cases hdata : s.data with
    | nil => exact absurd hdata hd
    | cons c cs =>
      obtain ⟨y, hy⟩ := joinSegs_head s rest c cs hdata
      intro hc
      rw [hc] at hy
      cases hy

theorem joinSegs_noDblSlash (segs : List String) (hgood : goodSegs segs) :
    hasDblSlash (joinSegs segs).data = false := by
  rw [hasDblSlash_eq_hasPairOf]
  induction segs with
  | nil => rfl
  | cons s rest ih =>
    cases rest with
    | nil =>
      exact noPair_of_not_mem '/' _ (hgood s (List.mem_cons_self s [])).2.1
    | cons b r2 =>
      rw [joinSegs_data_cons_cons]
      have hgood2 : goodSegs (b :: r2) := fun x hx => hgood x (List.mem_cons_of_mem s hx)
      have htail := ih hgood2
      have hb : b ≠ "" := (hgood2 b (List.mem_cons_self b r2)).1
      have hbd : b.data ≠ [] := fun hc => hb (by apply String.ext; simpa using hc)
      cases hbdata : b.data with
      | nil => exact absurd hbdata hbd
      | cons c cs =>
        obtain ⟨y, hy⟩ := joinSegs_head b r2 c cs hbdata
        have hcne : c ≠ '/' := by
          have := (hgood2 b (List.mem_cons_self b r2)).2.1
          rw [hbdata] at this
          exact fun hc => this (by rw [← hc]; exact List.mem_cons_self c cs)
        refine hasPairOf_append '/' s.data ('/' :: (joinSegs (b :: r2)).data)
          (noPair_of_not_mem '/' _ (hgood s (List.mem_cons_self s _)).2.1) ?_ ?_
        · rw [hy, hasPairOf]
          simp only [Bool.or_eq_false_iff]
          constructor
          · simp only [decide_eq_false_iff_not]
            intro hc
            exact hcne hc.2
          · rw [← hy]
            exact htail
        · right; right
          intro hc
          exact (hgood s (List.mem_cons_self s _)).2.1
            (List.mem_of_mem_getLast? hc.1)

theorem joinSegs_noBSPair (segs : List String) (hgood : goodSegs segs) :
    hasPairOf '\\' (joinSegs segs).data = false := by
  induction segs with
  | nil => rfl
  | cons s rest ih =>
    cases rest with
    | nil => exact (hgood s (List.mem_cons_self s [])).2.2
    | cons b r2 =>
      rw [joinSegs_data_cons_cons]
      have hgood2 : goodSegs (b :: r2) := fun x hx => hgood x (List.mem_cons_of_mem s hx)
      have htail := ih hgood2
      refine hasPairOf_append '\\' s.data ('/' :: (joinSegs (b :: r2)).data)
        (hgood s (List.mem_cons_self s _)).2.2 ?_ ?_
      · rw [hasPairOf_cons_of_ne _ _ _ (by decide)]
        exact htail
      · right; right
        intro hc
        cases hc.2

/-- `split('/')` inverts `join('/')` on well-formed segment lists. -/
theorem segsOf_joinSegs (segs : List String) (hne : segs ≠ [])
    (hslash : ∀ s ∈ segs, '/' ∉ s.data) : segsOf (joinSegs segs) = segs := by
  induction segs with
  | nil => exact absurd rfl hne
  | cons s rest ih =>
    cases rest with
    | nil =>
      simp only [segsOf, joinSegs]
      rw [splitSlash_no_sep s.data (hslash s (List.mem_cons_self s []))]
      simp
    | cons b r2 =>
      have hd : (joinSegs (s :: b :: r2)).data = s.data ++ '/' :: (joinSegs (b :: r2)).data :=
        joinSegs_data_cons_cons s b r2
      simp only [segsOf]
      rw [hd, splitSlash_append s.data _ (hslash s (List.mem_cons_self s _))]
      simp only [List.map_cons]
      have ihr := ih (by simp) fun x hx => hslash x (List.mem_cons_of_mem s hx)
      simp only [segsOf] at ihr
      rw [ihr]

/-- `joinSegs` is injective on well-formed segment lists. -/
theorem joinSegs_inj (a b : List String) (ha : goodSegs a) (hb : goodSegs b)
    (h : joinSegs a = joinSegs b) : a = b := by
  cases a with
  | nil =>
    cases b with
    | nil => rfl
    | cons s r =>
      exact absurd h.symm (joinSegs_ne_empty (s :: r) (by simp) hb)
  | cons s r =>
    cases b with
    | nil => exact absurd h (joinSegs_ne_empty (s :: r) (by simp) ha)
    | cons s2 r2 =>
      have h1 := segsOf_joinSegs (s :: r) (by simp) fun x hx => (ha x hx).2.1
      have h2 := segsOf_joinSegs (s2 :: r2) (by simp) fun x hx => (hb x hx).2.1
      rw [← h1, ← h2, h]

/-- `toPosix` is a no-op on a join of well-formed segments. -/
theorem toPosix_joinSegs (segs : List String) (hgood : goodSegs segs) :
    toPosix (joinSegs segs) = joinSegs segs :=
  toPosix_id _ (joinSegs_noDblSlash segs hgood) (joinSegs_noBSPair segs hgood)

theorem joinSegs_snoc (xs : List String) (a : String) (hne : xs ≠ []) :
    joinSegs (xs ++ [a]) = joinSegs xs ++ "/" ++ a := by
  induction xs with
  | nil => exact absurd rfl hne
  | cons s r ih =>
    cases r with
    | nil => rfl
    | cons b r2 =>
      have ih2 := ih (by simp)
      simp only [List.cons_append] at ih2 ⊢
      rw [joinSegs_cons_cons, ih2, joinSegs_cons_cons]
      apply String.ext
      simp [List.append_assoc]

/-! ### Which keys the builder creates (claims C8 and C9) -/

theorem hasKey_append_or (t : RuleTree) (key : String) (d : NodeData) (k : String)
    (h : hasKey (t ++ [(key, d)]) k = true) : hasKey t k = true ∨ k = key := by
  simp only [hasKey, lookupT_append] at h
  cases hl : lookupT t k with
  | some d0 => left; simp [hasKey, hl]
  | none =>
    rw [hl] at h
    simp only [lookupT] at h
    by_cases he : key = k
    · exact Or.inr he.symm
    · rw [if_neg he] at h
      simp [lookupT] at h

theorem hasKey_append_self (t : RuleTree) (key : String) (d : NodeData) :
    hasKey (t ++ [(key, d)]) key = true := by
  simp only [hasKey, lookupT_append]
  cases hl : lookupT t key with
  | some d0 => simp
  | none => simp [lookupT]

/-- Soundness of node creation: every key present after the `ensureNode`
recursion was already present, or is the join of a prefix of the requested
segment list (the requested folder or one of its ancestors). -/
theorem ensureRev_key_sound (rsegs : List String) : ∀ (t : RuleTree) (k : String),
    hasKey (ensureRev t rsegs) k = true →
    hasKey t k = true ∨ ∃ q r, q ++ r = rsegs.reverse ∧ k = joinSegs q := by
  induction rsegs with
  | nil =>
    intro t k h
    simp only [ensureRev] at h
    split at h
    · exact Or.inl h
    · rcases hasKey_append_or t "" (freshNode []) k h with h1 | h1
      · exact Or.inl h1
      · exact Or.inr ⟨[], [], rfl, h1⟩
  | cons s rest ih =>
    intro t k h
    simp only [ensureRev] at h
    split at h
    · exact Or.inl h
    · rw [hasKey_updateAt] at h
      rcases ih _ k h with h1 | ⟨q, r, hqr, hk⟩
      · rcases hasKey_append_or t _ _ k h1 with h2 | h2
        · exact Or.inl h2
        · exact Or.inr ⟨(s :: rest).reverse, [], by simp, h2⟩
      · refine Or.inr ⟨q, r ++ [s], ?_, hk⟩
        rw [← List.append_assoc, hqr]
        simp

/-- Completeness of node creation: if every already-present prefix key of
the requested segment list has all its own prefixes present
(ancestor-closedness, maintained by the builder), then after the
`ensureNode` recursion every prefix of the segment list is a key. -/
theorem ensureRev_key_complete (rsegs : List String) : ∀ (t : RuleTree),
    goodSegs rsegs.reverse →
    (∀ q1 q2 r, q1 ++ q2 ++ r = rsegs.reverse →
        hasKey t (joinSegs (q1 ++ q2)) = true → hasKey t (joinSegs q1) = true) →
    ∀ q r, q ++ r = rsegs.reverse → hasKey (ensureRev t rsegs) (joinSegs q) = true := by
  induction rsegs with
  | nil =>
    intro t _ _ q r hqr
    have hq : q = [] := (List.append_eq_nil.mp (by simpa using hqr)).1
    subst hq
    simp only [ensureRev]
    split
    · rename_i hk
      exact hk
    · exact hasKey_append_self t "" (freshNode [])
  | cons s rest ih =>
    intro t hgood H q r hqr
    simp only [ensureRev]
    split
    · rename_i hk
      exact H q r [] (by rw [List.append_nil]; exact hqr) (by rw [hqr]; exact hk)
    · rw [hasKey_updateAt]
      cases hrc : r with
      | nil =>
        have hq : q = (s :: rest).reverse := by
          rw [hrc, List.append_nil] at hqr
          exact hqr
        rw [hq]
        exact ensureRev_hasKey_mono _ rest _ (hasKey_append_self t _ _)
      | cons r0 rtl =>
        have hrne : r ≠ [] := by rw [hrc]; exact List.cons_ne_nil r0 rtl
        have h2 : (q ++ r.dropLast) ++ [r.getLast hrne] = rest.reverse ++ [s] := by
          rw [List.append_assoc, List.dropLast_append_getLast hrne, hqr, List.reverse_cons]
        have h3 := List.append_inj' h2 rfl
        have hq2 : q ++ r.dropLast = rest.reverse := h3.1
        have hgood2 : goodSegs rest.reverse :=
          goodSegs_sub hgood fun x hx => by
            rw [List.reverse_cons]; exact List.mem_append_left _ hx
        refine ih (t ++ [(joinSegs ((s :: rest).reverse), freshNode ((s :: rest).reverse))])
          hgood2 ?_ q r.dropLast hq2
        intro q1 q2 r3 heq hk12
        rcases hasKey_append_or t _ _ _ hk12 with hkt | hke
        · refine hasKey_append_mono t _ _ (H q1 q2 (r3 ++ [s]) ?_ hkt)
          rw [← List.append_assoc, heq, List.reverse_cons]
        · exfalso
          have hmem : ∀ x ∈ q1 ++ q2, x ∈ (s :: rest).reverse := by
            intro x hx
            rw [List.reverse_cons]
            exact List.mem_append_left _ (heq ▸ List.mem_append_left r3 hx)
          have hgq : goodSegs (q1 ++ q2) := goodSegs_sub hgood hmem
          have heq2 := joinSegs_inj (q1 ++ q2) ((s :: rest).reverse) hgq hgood hke
          have hle : (q1 ++ q2).length ≤ rest.reverse.length := by
            rw [← heq]
            simp
          rw [heq2] at hle
          simp at hle

/-- The folder segments of a placed file: all but the popped last segment
of the split normalized relative path (`core.ts:189-190`). -/
def folderSegsOf (f : MDFile) : List String := (segsOf (toPosix f.rel)).dropLast

theorem folderSegs_good (f : MDFile) (h : relValid f.rel) : goodSegs (folderSegsOf f) :=
  goodSegs_sub (goodSegs_of_relValid f.rel h) fun _ hs => List.dropLast_subset _ hs

theorem folderRelOf_eq (f : MDFile) : folderRelOf f = joinSegs (folderSegsOf f) := rfl

/-- On well-formed folder segments, `ensureNode` on the joined folder path
is exactly the reversed-segment recursion: re-normalising and re-splitting
the joined path recovers the segments. -/
theorem ensureNode_eq_rev (t : RuleTree) (f : MDFile) (hg : goodSegs (folderSegsOf f)) :
    ensureNode t (folderRelOf f) = ensureRev t (folderSegsOf f).reverse := by
  rw [ensureNode, folderRelOf_eq]
  by_cases he : folderSegsOf f = []
  · rw [he]
    rfl
  · rw [if_neg (joinSegs_ne_empty _ he hg), toPosix_joinSegs _ hg,
      segsOf_joinSegs _ he fun s hs => (hg s hs).2.1]

theorem folderKeyOf_eq (f : MDFile) (hg : goodSegs (folderSegsOf f)) :
    folderKeyOf f = joinSegs (folderSegsOf f) := by
  rw [folderKeyOf, folderRelOf_eq]
  by_cases he : folderSegsOf f = []
  · rw [he]
    rfl
  · rw [if_neg (joinSegs_ne_empty _ he hg), toPosix_joinSegs _ hg]

/-- The keys present after placing one file: the previous keys plus the
joins of all prefixes of the file's folder segments. -/
theorem place_hasKey_iff (t : RuleTree) (f : MDFile) (hg : goodSegs (folderSegsOf f))
    (hcl : ∀ q1 q2 r, q1 ++ q2 ++ r = folderSegsOf f →
        hasKey t (joinSegs (q1 ++ q2)) = true → hasKey t (joinSegs q1) = true)
    (k : String) :
    hasKey (place t f) k = true ↔
      hasKey t k = true ∨ ∃ q r, q ++ r = folderSegsOf f ∧ k = joinSegs q := by
  rw [place, hasKey_updateAt, ensureNode_eq_rev t f hg]
  constructor
  · intro h
    rcases ensureRev_key_sound _ _ _ h with h1 | ⟨q, r, hqr, hk⟩
    · exact Or.inl h1
    · rw [List.reverse_reverse] at hqr
      exact Or.inr ⟨q, r, hqr, hk⟩
  · rintro (h1 | ⟨q, r, hqr, rfl⟩)
    · exact ensureRev_hasKey_mono t _ k h1
    · refine ensureRev_key_complete _ t (by rwa [List.reverse_reverse]) ?_ q r
        (by rwa [List.reverse_reverse])
      intro q1 q2 r3 heq hk12
      exact hcl q1 q2 r3 (by rwa [List.reverse_reverse] at heq) hk12

/-- A key accounted for by the already-placed files: the join of a prefix
of some placed file's folder segments (the folder itself or an ancestor,
the root for the empty prefix). -/
abbrev keyFromPlaced (acc : List MDFile) (k : String) : Prop :=
  ∃ f ∈ acc, ∃ q r, q ++ r = folderSegsOf f ∧ k = joinSegs q

/-- Folding the loop body over a file list turns an exact key accounting
for the already-placed files into one for the extended list. -/
theorem foldl_place_keys (L : List MDFile) : ∀ (acc : List MDFile) (t : RuleTree),
    (∀ f ∈ L, goodSegs (folderSegsOf f)) →
    (∀ f ∈ acc, goodSegs (folderSegsOf f)) →
    (∀ k, hasKey t k = true ↔ keyFromPlaced acc k) →
    ∀ k, hasKey (L.foldl place t) k = true ↔ keyFromPlaced (acc ++ L) k := by
  induction L with
  | nil =>
    intro acc t _ _ hspec k
    simpa using hspec k
  | cons f rest ih =>
    intro acc t hgood haccg hspec k
    rw [List.foldl_cons]
    have hgf : goodSegs (folderSegsOf f) := hgood f (List.mem_cons_self f rest)
    have hcl : ∀ q1 q2 r, q1 ++ q2 ++ r = folderSegsOf f →
        hasKey t (joinSegs (q1 ++ q2)) = true → hasKey t (joinSegs q1) = true := by
      intro q1 q2 r3 heq h12
      rw [hspec] at h12 ⊢
      obtain ⟨g, hgacc, q', r', hq'r', hkeq⟩ := h12
      have hgq : goodSegs (q1 ++ q2) :=
        goodSegs_sub hgf fun x hx => heq ▸ List.mem_append_left r3 hx
      have hgq' : goodSegs q' :=
        goodSegs_sub (haccg g hgacc) fun x hx => hq'r' ▸ List.mem_append_left r' hx
      have heq2 : q1 ++ q2 = q' := joinSegs_inj _ _ hgq hgq' hkeq
      refine ⟨g, hgacc, q1, q2 ++ r', ?_, rfl⟩
      rw [← List.append_assoc, heq2, hq'r']
    have hspec' : ∀ k', hasKey (place t f) k' = true ↔ keyFromPlaced (acc ++ [f]) k' := by
      intro k'
      rw [place_hasKey_iff t f hgf hcl k']
      constructor
      · rintro (h1 | ⟨q, r, hqr, hk⟩)
        · obtain ⟨g, hga, hw⟩ := (hspec k').mp h1
          exact ⟨g, List.mem_append_left _ hga, hw⟩
        · exact ⟨f, List.mem_append_right _ (List.mem_singleton_self f), q, r, hqr, hk⟩
      · rintro ⟨g, hga, q, r, hqr, hk⟩
        rcases List.mem_append.mp hga with hga1 | hga1
        · exact Or.inl ((hspec k').mpr ⟨g, hga1, q, r, hqr, hk⟩)
        · rw [List.mem_singleton] at hga1
          subst hga1
          exact Or.inr ⟨q, r, hqr, hk⟩
    have hres := ih (acc ++ [f]) (place t f)
      (fun g hg => hgood g (List.mem_cons_of_mem f hg))
      (by
        intro g hg
        rcases List.mem_append.mp hg with hg1 | hg1
        · exact haccg g hg1
        · rw [List.mem_singleton] at hg1
          subst hg1
          exact hgf)
      hspec' k
    rw [List.append_assoc] at hres
    simpa using hres

/-- The keys of a freshly built tree: exactly the folder keys of the
included files and all their ancestors (including the root). -/
theorem buildTree_keys (src : NormalizedRulesSource) (files : List MDFile)
    (hv : ∀ f ∈ files, relValid f.rel) (k : String) :
    hasKey (buildTree src files) k = true ↔
      ∃ f ∈ files.filter (fun g => includedB src g.rel),
        ∃ q r, q ++ r = folderSegsOf f ∧ k = joinSegs q := by
  rw [buildTree, appendDirectoryToTree]
  have hres := foldl_place_keys (files.filter fun g => includedB src g.rel) [] []
    (fun f hf => folderSegs_good f (hv f (List.mem_of_mem_filter hf)))
    (fun f hf => absurd hf (List.not_mem_nil f))
    (by
      intro k'
      constructor
      · intro h
        simp [hasKey, lookupT] at h
      · rintro ⟨g, hg, -⟩
        exact absurd hg (List.not_mem_nil g))
    k
  rw [List.nil_append] at hres
  exact hres

/-- The structural invariant of the flat tree: every stored node's `path`
field is its map key, and the key is the `'/'`-join of a well-formed
segment list whose length is the node's `depth` (the empty list for the
root). -/
def pathOk (t : RuleTree) : Prop :=
  ∀ k d, lookupT t k = some d →
    d.path = k ∧ ∃ segs, goodSegs segs ∧ k = joinSegs segs ∧ d.depth = segs.length

theorem pathOk_nil : pathOk [] := by
  intro k d h
  simp [lookupT] at h

theorem pathOk_append_fresh (t : RuleTree) (segs : List String)
    (hg : goodSegs segs) (h : pathOk t) :
    pathOk (t ++ [(joinSegs segs, freshNode segs)]) := by
  intro k d hl
  rw [lookupT_append] at hl
  cases hlt : lookupT t k with
  | some d0 =>
    rw [hlt] at hl
    obtain rfl : d0 = d := by injection hl
    exact h k d0 hlt
  | none =>
    rw [hlt] at hl
    simp only [lookupT] at hl
    split at hl
    · rename_i hke
      obtain rfl : freshNode segs = d := by injection hl
      exact ⟨hke, segs, hg, hke.symm, rfl⟩
    · cases hl

theorem pathOk_updateAt (t : RuleTree) (k0 : String) (g : NodeData → NodeData)
    (hpres : ∀ d, (g d).path = d.path ∧ (g d).depth = d.depth)
    (h : pathOk t) : pathOk (updateAt t k0 g) := by
  intro k d hl
  rw [lookupT_updateAt] at hl
  split at hl
  · rename_i hk
    subst hk
    cases hlt : lookupT t k with
    | some d0 =>
      rw [hlt] at hl
      cases hl
      obtain ⟨h1, segs, h2, h3, h4⟩ := h k d0 hlt
      exact ⟨(hpres d0).1.trans h1, segs, h2, h3, (hpres d0).2.trans h4⟩
    | none =>
      rw [hlt] at hl
      cases hl
  · exact h k d hl

theorem pathOk_ensureRev (rsegs : List String) : ∀ t : RuleTree,
    goodSegs rsegs.reverse → pathOk t → pathOk (ensureRev t rsegs) := by
  induction rsegs with
  | nil =>
    intro t _ h
    simp only [ensureRev]
    split
    · exact h
    · exact pathOk_append_fresh t [] (fun s hs => absurd hs (List.not_mem_nil s)) h
  | cons s rest ih =>
    intro t hgood h
    simp only [ensureRev]
    split
    · exact h
    · refine pathOk_updateAt _ _ _ (fun d => ⟨rfl, rfl⟩) ?_
      refine ih _ (goodSegs_sub hgood fun x hx => ?_) (pathOk_append_fresh t _ hgood h)
      rw [List.reverse_cons]
      exact List.mem_append_left _ hx

theorem placeData_pres (f : MDFile) (d : NodeData) :
    (placeData f d).path = d.path ∧ (placeData f d).depth = d.depth := by
  rw [placeData]
  split <;> exact ⟨rfl, rfl⟩

theorem pathOk_place (t : RuleTree) (f : MDFile) (hg : goodSegs (folderSegsOf f))
    (h : pathOk t) : pathOk (place t f) := by
  rw [place, ensureNode_eq_rev t f hg]
  refine pathOk_updateAt _ _ _ (placeData_pres f) ?_
  exact pathOk_ensureRev _ t (by rwa [List.reverse_reverse]) h

theorem pathOk_foldl (L : List MDFile) : ∀ t : RuleTree,
    (∀ f ∈ L, goodSegs (folderSegsOf f)) → pathOk t → pathOk (L.foldl place t) := by
  induction L with
  | nil =>
    intro t _ h
    exact h
  | cons f rest ih =>
    intro t hgood h
    rw [List.foldl_cons]
    exact ih _ (fun g hg => hgood g (List.mem_cons_of_mem f hg))
      (pathOk_place t f (hgood f (List.mem_cons_self f rest)) h)

/-- Claim C8: in every tree the builder produces, each stored node's `path`
equals its map key, and that key is the `'/'`-joined concatenation of its
ancestors' segments plus its own name segment — a well-formed segment list
whose length is the node's `depth` (`0`, the empty list, for the root);
moreover a node exists in the tree if and only if its key is the folder of
some included placed file or an ancestor of such a folder (the join of a
prefix of that file's folder segments). -/
theorem C8_paths_and_node_existence (src : NormalizedRulesSource) (files : List MDFile)
    (hv : ∀ f ∈ files, relValid f.rel) :
    (∀ k d, lookupT (buildTree src files) k = some d →
        d.path = k ∧ ∃ segs, goodSegs segs ∧ k = joinSegs segs ∧ d.depth = segs.length)
      ∧ (∀ k, hasKey (buildTree src files) k = true ↔
          ∃ f ∈ files.filter (fun g => includedB src g.rel),
            ∃ q r, q ++ r = folderSegsOf f ∧ k = joinSegs q) := by
  constructor
  · intro k d h
    have hp : pathOk (buildTree src files) := by
      rw [buildTree, appendDirectoryToTree]
      exact pathOk_foldl _ []
        (fun f hf => folderSegs_good f (hv f (List.mem_of_mem_filter hf))) pathOk_nil
    exact hp k d h
  · exact buildTree_keys src files hv

theorem C8_paths_and_node_existence_witness :
    hasKey
        (buildTree ⟨true, [], []⟩ [(⟨"a/b.md", ⟨none, none⟩, ""⟩ : MDFile)])
        "a" = true := by
  have hv : ∀ f ∈ [(⟨"a/b.md", ⟨none, none⟩, ""⟩ : MDFile)], relValid f.rel := by
    intro f hf
    rw [List.mem_singleton] at hf
    subst hf
    show ∀ s ∈ segsOf (toPosix "a/b.md"), s ≠ ""
    decide
  exact ((C8_paths_and_node_existence _ _ hv).2 "a").mpr
    ⟨_, List.mem_filter.mpr ⟨List.mem_singleton_self _, by decide⟩,
      ["a"], [], by decide, rfl⟩

set_option maxHeartbeats 2000000 in
/-- Claim C9: an included rule file whose front matter sets
`enabled: false` still causes the builder to create the node for its
folder and every ancestor (creation happens before the front matter is
examined), and the renderer then emits a heading line for the otherwise
empty section while the disabled rule's content never appears — shown
concretely for a disabled `a/b.md`: the output contains the `## A`
heading and not the body text. -/
theorem C9_disabled_file_creates_empty_section
    (src : NormalizedRulesSource) (files : List MDFile) (f : MDFile)
    (hv : ∀ g ∈ files, relValid g.rel)
    (hmem : f ∈ files) (hinc : includedB src f.rel = true)
    (_hdis : disabledOf f) :
    (∀ q r, q ++ r = folderSegsOf f →
        hasKey (buildTree src files) (joinSegs q) = true)
      ∧ renderFlat (buildTree ⟨true, [], []⟩
            [(⟨"a/b.md", ⟨some false, none⟩, "SECRET"⟩ : MDFile)]) "T" none
          = "<!-- Generated by @imjamesbarrett/agent-rules – do not edit directly. -->\n\n# T\n\n## A\n" := by
  constructor
  · intro q r hqr
    exact (buildTree_keys src files hv (joinSegs q)).mpr
      ⟨f, List.mem_filter.mpr ⟨hmem, hinc⟩, q, r, hqr, rfl⟩
  · rfl

theorem C9_disabled_file_creates_empty_section_witness :
    hasKey (buildTree ⟨true, [], []⟩
        [(⟨"a/b.md", ⟨some false, none⟩, "SECRET"⟩ : MDFile)]) "a" = true := by
  have hv : ∀ g ∈ [(⟨"a/b.md", ⟨some false, none⟩, "SECRET"⟩ : MDFile)], relValid g.rel := by
    intro g hg
    rw [List.mem_singleton] at hg
    subst hg
    show ∀ s ∈ segsOf (toPosix "a/b.md"), s ≠ ""
    decide
  exact (C9_disabled_file_creates_empty_section ⟨true, [], []⟩ _ _ hv
      (List.mem_singleton_self _) (by decide) rfl).1 ["a"] [] (by decide)

/-! ### Claim C6 — idempotence of the builder -/

/-- Whether a placed file rewrites a rule slot of folder key `k`: a
non-index file whose folder key is `k`. -/
def touchR (k : String) (f : MDFile) : Bool :=
  decide (folderKeyOf f = k) && !isIndexFile (fileNameOf f)

/-- Whether a rule record survives every removal filter a file list
applies to folder `k`. -/
def keepR (L : List MDFile) (k : String) (r : Rule) : Bool :=
  L.all fun f => !(touchR k f && decide (r.fileName = baseOf f))

/-- Whether a placed file is the `_index` file of folder key `k`. -/
def touchI (k : String) (f : MDFile) : Bool :=
  decide (folderKeyOf f = k) && isIndexFile (fileNameOf f)

/-- Normal form of the rule list a file sequence leaves at folder `k`:
whatever was there before, minus every slot the sequence rewrites, plus
the slots the sequence itself produces (independent of the start tree). -/
theorem foldl_rules_nf (L : List MDFile) : ∀ (t : RuleTree) (k : String),
    rulesD (L.foldl place t) k
      = (rulesD t k).filter (keepR L k) ++ rulesD (L.foldl place ([] : RuleTree)) k := by
  induction L with
  | nil =>
    intro t k
    have hid : (rulesD t k).filter (keepR [] k) = rulesD t k :=
      List.filter_eq_self.mpr fun r _ => by simp [keepR]
    simp only [List.foldl_nil]
    rw [hid, show rulesD ([] : RuleTree) k = [] from rfl, List.append_nil]
  | cons f rest ih =>
    intro t k
    rw [List.foldl_cons, List.foldl_cons, ih (place t f) k, ih (place ([] : RuleTree) f) k,
      ← List.append_assoc]
    congr 1
    by_cases hk : folderKeyOf f = k
    · subst hk
      by_cases hidx : isIndexFile (fileNameOf f) = true
      · rw [place_rules_index t f hidx, place_rules_index ([] : RuleTree) f hidx,
          show rulesD ([] : RuleTree) (folderKeyOf f) = [] from rfl]
        simp only [List.filter_nil, List.append_nil]
        apply List.filter_congr
        intro r _
        simp [keepR, touchR, hidx]
      · have hni : isIndexFile (fileNameOf f) = false := eq_false_of_ne_true hidx
        rw [place_rules_rule t f hni, place_rules_rule ([] : RuleTree) f hni,
          show rulesD ([] : RuleTree) (folderKeyOf f) = [] from rfl,
          List.filter_nil, List.nil_append, List.filter_append]
        congr 1
        rw [List.filter_filter]
        apply List.filter_congr
        intro r _
        by_cases hr : r.fileName = baseOf f <;>
          simp [keepR, touchR, hni, hr]
    · have h1 := (place_obs_other t f k fun hc => hk hc.symm).1
      have h2 := (place_obs_other ([] : RuleTree) f k fun hc => hk hc.symm).1
      rw [h1, h2, show rulesD ([] : RuleTree) k = [] from rfl]
      simp only [List.filter_nil, List.append_nil]
      apply List.filter_congr
      intro r _
      simp [keepR, touchR, hk]

/-- Every rule a file sequence leaves at folder `k` was either already
there or carries the base name of one of the sequence's files. -/
theorem foldl_rules_mem (L : List MDFile) : ∀ (t : RuleTree) (k : String) (r : Rule),
    r ∈ rulesD (L.foldl place t) k →
    r ∈ rulesD t k ∨ ∃ f ∈ L, touchR k f = true ∧ r.fileName = baseOf f := by
  induction L with
  | nil =>
    intro t k r h
    exact Or.inl h
  | cons f rest ih =>
    intro t k r h
    rw [List.foldl_cons] at h
    rcases ih (place t f) k r h with h1 | ⟨g, hg, hts⟩
    · by_cases hk : folderKeyOf f = k
      · subst hk
        by_cases hidx : isIndexFile (fileNameOf f) = true
        · rw [place_rules_index t f hidx] at h1
          exact Or.inl h1
        · have hni : isIndexFile (fileNameOf f) = false := eq_false_of_ne_true hidx
          rw [place_rules_rule t f hni] at h1
          rcases List.mem_append.mp h1 with h2 | h2
          · exact Or.inl (List.mem_of_mem_filter h2)
          · split at h2
            · cases h2
            · rw [List.mem_singleton] at h2
              subst h2
              exact Or.inr ⟨f, List.mem_cons_self f rest, by simp [touchR, hni], rfl⟩
      · rw [(place_obs_other t f k fun hc => hk hc.symm).1] at h1
        exact Or.inl h1
    · exact Or.inr ⟨g, List.mem_cons_of_mem f hg, hts⟩

/-- A file sequence containing no `_index` file of folder `k` leaves the
folder's index content and section order unchanged. -/
theorem foldl_icso_no_index (L : List MDFile) : ∀ (t : RuleTree) (k : String),
    (∀ f ∈ L, touchI k f = false) →
    icD (L.foldl place t) k = icD t k ∧ soD (L.foldl place t) k = soD t k := by
  induction L with
  | nil =>
    intro t k _
    exact ⟨rfl, rfl⟩
  | cons f rest ih =>
    intro t k hno
    rw [List.foldl_cons]
    have hf := hno f (List.mem_cons_self f rest)
    obtain ⟨ih1, ih2⟩ := ih (place t f) k fun g hg => hno g (List.mem_cons_of_mem f hg)
    by_cases hk : folderKeyOf f = k
    · subst hk
      have hidx : isIndexFile (fileNameOf f) = false := by
        simpa [touchI] using hf
      obtain ⟨p1, p2⟩ := place_icso_rule t f hidx
      exact ⟨ih1.trans p1, ih2.trans p2⟩
    · obtain ⟨-, p1, p2⟩ := place_obs_other t f k fun hc => hk hc.symm
      exact ⟨ih1.trans p1, ih2.trans p2⟩

/-- A file sequence containing an `_index` file of folder `k` determines
the folder's index content and section order regardless of the start
tree. -/
theorem foldl_icso_with_index (L : List MDFile) : ∀ (t t' : RuleTree) (k : String),
    (∃ f ∈ L, touchI k f = true) →
    icD (L.foldl place t) k = icD (L.foldl place t') k
      ∧ soD (L.foldl place t) k = soD (L.foldl place t') k := by
  induction L with
  | nil =>
    intro t t' k h
    obtain ⟨f, hf, -⟩ := h
    exact absurd hf (List.not_mem_nil f)
  | cons f rest ih =>
    intro t t' k h
    rw [List.foldl_cons, List.foldl_cons]
    by_cases hrest : ∃ g ∈ rest, touchI k g = true
    · exact ih (place t f) (place t' f) k hrest
    · obtain ⟨g, hg, htg⟩ := h
      have hgf : g = f := by
        rcases List.mem_cons.mp hg with h1 | h1
        · exact h1
        · exact absurd ⟨g, h1, htg⟩ hrest
      subst hgf
      have hno : ∀ g' ∈ rest, touchI k g' = false := by
        intro g' hg'
        cases hb : touchI k g' with
        | false => rfl
        | true => exact absurd ⟨g', hg', hb⟩ hrest
      have hk : folderKeyOf g = k := by
        by_contra hc
        simp [touchI, hc] at htg
      subst hk
      have hidx : isIndexFile (fileNameOf g) = true := by
        simpa [touchI] using htg
      obtain ⟨a1, a2⟩ := foldl_icso_no_index rest (place t g) (folderKeyOf g) hno
      obtain ⟨b1, b2⟩ := foldl_icso_no_index rest (place t' g) (folderKeyOf g) hno
      obtain ⟨p1, p2⟩ := place_icso_index t g hidx
      obtain ⟨q1, q2⟩ := place_icso_index t' g hidx
      exact ⟨(a1.trans (p1.trans q1.symm)).trans b1.symm,
        (a2.trans (p2.trans q2.symm)).trans b2.symm⟩

/-- Claim C6: appending the same source over the same file contents a
second time leaves every folder's observable state unchanged — the same
rule list in the same order, and the same index content and section
order. -/
theorem C6_second_run_is_identity (src : NormalizedRulesSource) (files : List MDFile)
    (k : String) :
    rulesD (appendDirectoryToTree (buildTree src files) src files) k
        = rulesD (buildTree src files) k
      ∧ icD (appendDirectoryToTree (buildTree src files) src files) k
        = icD (buildTree src files) k
      ∧ soD (appendDirectoryToTree (buildTree src files) src files) k
        = soD (buildTree src files) k := by
  have hrules : rulesD ((files.filter fun g => includedB src g.rel).foldl place
      (buildTree src files)) k = rulesD (buildTree src files) k := by
    rw [foldl_rules_nf]
    have hnil : (rulesD (buildTree src files) k).filter
        (keepR (files.filter fun g => includedB src g.rel) k) = [] := by
      rw [List.filter_eq_nil_iff]
      intro r hr
      rcases foldl_rules_mem (files.filter fun g => includedB src g.rel)
          ([] : RuleTree) k r hr with h1 | ⟨f, hf, ht, he⟩
      · simp [rulesD, lookupT] at h1
      · intro hkeep
        rw [keepR, List.all_eq_true] at hkeep
        have hcontra := hkeep f hf
        simp [ht, he] at hcontra
    rw [hnil, List.nil_append]
    rfl
  by_cases hex : ∃ f ∈ files.filter fun g => includedB src g.rel, touchI k f = true
  · obtain ⟨hic, hso⟩ := foldl_icso_with_index (files.filter fun g => includedB src g.rel)
      (buildTree src files) ([] : RuleTree) k hex
    exact ⟨hrules, hic, hso⟩
  · have hno : ∀ f ∈ files.filter fun g => includedB src g.rel, touchI k f = false := by
      intro f hf
      cases hb : touchI k f with
      | false => rfl
      | true => exact absurd ⟨f, hf, hb⟩ hex
    obtain ⟨hic, hso⟩ := foldl_icso_no_index (files.filter fun g => includedB src g.rel)
      (buildTree src files) k hno
    exact ⟨hrules, hic, hso⟩

/-! ### Claim C2 — the heading depth cap

The rendered document is a single string; its physical lines are obtained
by splitting at every newline, exactly as a Markdown consumer reads it.
A heading line's level is its count of leading `'#'` characters. -/

/-- Split a character list at every occurrence of `c0` (the generic form
of the `split` used for `'/'` above, here used with `'\n'`). -/
def splitCh (c0 : Char) : List Char → List (List Char)
  | [] => [[]]
  | c :: rest =>
    if c = c0 then [] :: splitCh c0 rest
    else
      match splitCh c0 rest with
      | [] => [[c]]
      | g :: gs => (c :: g) :: gs

/-- The physical lines of a string: split at every newline. -/
def physLines (s : String) : List String := (splitCh '\n' s.data).map fun l => ⟨l⟩

/-- The Markdown heading level of a line: its count of leading `'#'`
characters (0 for a non-heading line). -/
def leadingHashes (s : String) : Nat := (s.data.takeWhile fun c => c = '#').length

theorem splitCh_ne_nil (c0 : Char) : ∀ l : List Char, splitCh c0 l ≠ [] := by
  intro l
  induction l with
  | nil => simp [splitCh]
  | cons c rest ih =>
    simp only [splitCh]
    split
    · simp
    · split
      · simp
      · simp

theorem splitCh_no_sep (c0 : Char) : ∀ l : List Char, c0 ∉ l → splitCh c0 l = [l] := by
  intro l
  induction l with
  | nil => intro _; rfl
  | cons c rest ih =>
    intro h
    have hc : c ≠ c0 := fun hc => h (by rw [hc]; exact List.mem_cons_self _ _)
    simp only [splitCh, if_neg hc]
    rw [ih fun hm => h (List.mem_cons_of_mem c hm)]

theorem splitCh_append_sep (c0 : Char) :
    ∀ a b : List Char, splitCh c0 (a ++ c0 :: b) = splitCh c0 a ++ splitCh c0 b := by
  intro a b
  induction a with
  | nil =>
    simp only [List.nil_append, splitCh, if_pos rfl]
    rfl
  | cons c rest ih =>
    by_cases hc : c = c0
    · subst hc
      simp only [List.cons_append, splitCh, if_pos rfl]
      rw [show rest.append (c :: b) = rest ++ c :: b from rfl, ih]
      rfl
    · simp only [List.cons_append, splitCh, if_neg hc]
      rw [show rest.append (c0 :: b) = rest ++ c0 :: b from rfl, ih]
      cases hsp : splitCh c0 rest with
      | nil => exact absurd hsp (splitCh_ne_nil c0 rest)
      | cons g gs => rfl

/-- A newline-free string is its own single physical line. -/
theorem physLines_single (s : String) (h : '\n' ∉ s.data) : physLines s = [s] := by
  rw [physLines, splitCh_no_sep '\n' s.data h]
  rfl

theorem physLines_empty : physLines "" = [""] := rfl

theorem leadingHashes_head_ne (c : Char) (l : List Char) (h : c ≠ '#') :
    leadingHashes ⟨c :: l⟩ = 0 := by
  simp [leadingHashes, List.takeWhile, h]

theorem takeWhile_hash_replicate (n : Nat) (l : List Char) :
    (List.takeWhile (fun c => c = '#') (List.replicate n '#' ++ ' ' :: l)).length = n := by
  induction n with
  | zero => simp [List.takeWhile_cons]
  | succ m ih => simp [List.replicate_succ, List.takeWhile_cons, ih]

theorem leadingHashes_heading (n : Nat) (nm : String) :
    leadingHashes (hashes n ++ " " ++ nm) = n := by
  have hd : (hashes n ++ " " ++ nm).data
      = List.replicate n '#' ++ ' ' :: nm.data := by
    simp [String.data_append, hashes]
  rw [leadingHashes, hd]
  exact takeWhile_hash_replicate n nm.data

theorem hashes_no_nl (n : Nat) (nm : String) (h : '\n' ∉ nm.data) :
    '\n' ∉ (hashes n ++ " " ++ nm).data := by
  intro hm
  simp only [String.data_append, List.mem_append] at hm
  rcases hm with (hm | hm) | hm
  · rw [show (hashes n).data = List.replicate n '#' from rfl] at hm
    have := List.eq_of_mem_replicate hm
    cases this
  · simp [show (" " : String).data = [' '] from rfl] at hm
  · exact h hm

/-- Two-sided bound on the clamped heading depth. -/
theorem clampDepth_bounds (md : Option Int) : 2 ≤ clampDepth md ∧ clampDepth md ≤ 6 := by
  rw [clampDepth]
  rcases md with - | v
  · constructor <;> decide
  · simp only [Option.getD_some]
    constructor <;> omega

theorem dropTrailingEmpties_subset (ls : List String) (l : String)
    (h : l ∈ dropTrailingEmpties ls) : l ∈ ls := by
  rw [dropTrailingEmpties, List.mem_reverse] at h
  have := (List.dropWhile_sublist _).subset h
  rwa [List.mem_reverse] at this

theorem mem_joinSep_data (sep : String) (c : Char) :
    ∀ ls : List String, c ∈ (joinSep sep ls).data →
      c ∈ sep.data ∨ ∃ s ∈ ls, c ∈ s.data := by
  intro ls
  induction ls with
  | nil =>
    intro h
    cases h
  | cons s rest ih =>
    cases rest with
    | nil =>
      intro h
      exact Or.inr ⟨s, List.mem_singleton_self s, h⟩
    | cons b r2 =>
      intro h
      rw [show joinSep sep (s :: b :: r2) = s ++ sep ++ joinSep sep (b :: r2) from rfl] at h
      simp only [String.data_append, List.mem_append] at h
      rcases h with (h | h) | h
      · exact Or.inr ⟨s, List.mem_cons_self s _, h⟩
      · exact Or.inl h
      · rcases ih h with h2 | ⟨g, hg, hc⟩
        · exact Or.inl h2
        · exact Or.inr ⟨g, List.mem_cons_of_mem s hg, hc⟩

/-! #### `titleCase` output never contains a newline -/

theorem toNat_ofNat_valid (n : Nat) (h : n < 55296) : (Char.ofNat n).toNat = n := by
  rw [Char.ofNat, dif_pos (Or.inl h)]
  simp [Char.ofNatAux, Char.toNat, UInt32.toNat, BitVec.toNat_ofNatLt]

theorem char_eq_of_toNat (c d : Char) (h : c.toNat = d.toNat) : c = d :=
  Char.ext (UInt32.ext h)

/-- The whitespace test depends only on the character's code point. -/
theorem jsWs_iff_toNat (c : Char) :
    jsWs c = true ↔ (c.toNat = 32 ∨ c.toNat = 9 ∨ c.toNat = 10 ∨ c.toNat = 13
      ∨ c.toNat = 11 ∨ c.toNat = 12) := by
  rw [jsWs]
  simp only [Bool.or_eq_true, decide_eq_true_eq]
  constructor
  · intro h
    rcases h with ((((h | h) | h) | h) | h) | h <;> rw [h] <;> decide
  · intro h
    rcases h with h | h | h | h | h | h
    · exact Or.inl (Or.inl (Or.inl (Or.inl (Or.inl (char_eq_of_toNat c ' ' h)))))
    · exact Or.inl (Or.inl (Or.inl (Or.inl (Or.inr (char_eq_of_toNat c '\t' h)))))
    · exact Or.inl (Or.inl (Or.inl (Or.inr (char_eq_of_toNat c '\n' h))))
    · exact Or.inl (Or.inl (Or.inr (char_eq_of_toNat c '\r' h)))
    · exact Or.inl (Or.inr (char_eq_of_toNat c (Char.ofNat 11) h))
    · exact Or.inr (char_eq_of_toNat c (Char.ofNat 12) h)

theorem jsWs_asciiUpperChar (c : Char) (h : jsWs c = false) :
    jsWs (asciiUpperChar c) = false := by
  rw [asciiUpperChar]
  split
  · rename_i hr
    have h1 : 97 ≤ c.toNat := by
      have := hr.1
      rw [Char.le_def] at this
      exact this
    have h2 : c.toNat ≤ 122 := by
      have := hr.2
      rw [Char.le_def] at this
      exact this
    have hv : (Char.ofNat (c.toNat - 32)).toNat = c.toNat - 32 :=
      toNat_ofNat_valid _ (by omega)
    cases hb : jsWs (Char.ofNat (c.toNat - 32)) with
    | false => rfl
    | true =>
      exfalso
      have := (jsWs_iff_toNat _).mp hb
      rw [hv] at this
      omega
  · exact h

theorem jsWs_asciiLowerChar (c : Char) (h : jsWs c = false) :
    jsWs (asciiLowerChar c) = false := by
  rw [asciiLowerChar]
  split
  · rename_i hr
    have h1 : 65 ≤ c.toNat := by
      have := hr.1
      rw [Char.le_def] at this
      exact this
    have h2 : c.toNat ≤ 90 := by
      have := hr.2
      rw [Char.le_def] at this
      exact this
    have hv : (Char.ofNat (c.toNat + 32)).toNat = c.toNat + 32 :=
      toNat_ofNat_valid _ (by omega)
    cases hb : jsWs (Char.ofNat (c.toNat + 32)) with
    | false => rfl
    | true =>
      exfalso
      have := (jsWs_iff_toNat _).mp hb
      rw [hv] at this
      omega
  · exact h

theorem capitalizeWord_no_ws (w : List Char) (hw : ∀ c ∈ w, jsWs c = false) :
    ∀ c ∈ capitalizeWord w, jsWs c = false := by
  cases w with
  | nil =>
    intro c hc
    cases hc
  | cons c0 rest =>
    intro c hc
    rw [capitalizeWord] at hc
    rcases List.mem_cons.mp hc with hc | hc
    · subst hc
      exact jsWs_asciiUpperChar c0 (hw c0 (List.mem_cons_self c0 rest))
    · obtain ⟨c1, hc1, rfl⟩ := List.mem_map.mp hc
      exact jsWs_asciiLowerChar c1 (hw c1 (List.mem_cons_of_mem c0 hc1))

theorem wordsGo_no_ws : ∀ (l acc : List Char), (∀ c ∈ acc, jsWs c = false) →
    ∀ w ∈ wordsGo l acc, ∀ c ∈ w, jsWs c = false := by
  intro l
  induction l with
  | nil =>
    intro acc hacc w hw c hc
    rw [wordsGo] at hw
    split at hw
    · cases hw
    · rw [List.mem_singleton] at hw
      subst hw
      exact hacc c (List.mem_reverse.mp hc)
  | cons c0 rest ih =>
    intro acc hacc w hw c hc
    rw [wordsGo] at hw
    split at hw
    · split at hw
      · exact ih [] (fun c' hc' => absurd hc' (List.not_mem_nil c')) w hw c hc
      · rcases List.mem_cons.mp hw with hw1 | hw1
        · subst hw1
          exact hacc c (List.mem_reverse.mp hc)
        · exact ih [] (fun c' hc' => absurd hc' (List.not_mem_nil c')) w hw1 c hc
    · rename_i hws
      refine ih (c0 :: acc) ?_ w hw c hc
      intro c' hc'
      rcases List.mem_cons.mp hc' with hc1 | hc1
      · subst hc1
        exact Bool.eq_false_iff.mpr hws
      · exact hacc c' hc1

/-- `titleCase` output never contains a newline: its words contain no
whitespace characters and they are joined by single spaces. -/
theorem titleCase_no_nl (s : String) : '\n' ∉ (titleCase s).data := by
  intro hm
  rw [titleCase] at hm
  rcases mem_joinSep_data " " '\n' _ hm with h | ⟨w', hw', hc⟩
  · simp [show (" " : String).data = [' '] from rfl] at h
  · obtain ⟨w, hw, rfl⟩ := List.mem_map.mp hw'
    have hnws := capitalizeWord_no_ws w
      (wordsGo_no_ws _ [] (fun c' hc' => absurd hc' (List.not_mem_nil c')) w hw) '\n' hc
    simp [jsWs] at hnws

/-- `titleFromSegments` output never contains a newline. -/
theorem titleFromSegments_no_nl (segs : List String) :
    '\n' ∉ (titleFromSegments segs).data := by
  intro hm
  rw [titleFromSegments] at hm
  rcases mem_joinSep_data " / " '\n' _ hm with h | ⟨w', hw', hc⟩
  · simp [show (" / " : String).data = [' ', '/', ' '] from rfl] at h
  · obtain ⟨g, -, rfl⟩ := List.mem_map.mp hw'
    exact titleCase_no_nl g hc

/-! #### Well-formed render inputs -/

/-- Every physical line of the string is a non-heading line. -/
def cleanStr (s : String) : Prop := ∀ pl ∈ physLines s, leadingHashes pl = 0

/-- `cleanStr` for an optional content. -/
def cleanText : Option String → Prop
  | none => True
  | some s => cleanStr s

mutual
/-- Render-input sanity, as the builder guarantees it: node names and rule
titles are single-line, and no physical line of an index content or a rule
content itself begins with `'#'`. -/
def cleanNode : SectionNode → Prop
  | .node nm _ _ ic _ rs ch =>
    '\n' ∉ nm.data ∧ cleanText ic
      ∧ (∀ r ∈ rs, '\n' ∉ r.title.data ∧ cleanStr r.content) ∧ cleanChildren ch

/-- `cleanNode` for every entry of a children list. -/
def cleanChildren : List (String × SectionNode) → Prop
  | [] => True
  | (_, c) :: rest => cleanNode c ∧ cleanChildren rest
end

theorem cleanChildren_iff (ch : List (String × SectionNode)) :
    cleanChildren ch ↔ ∀ e ∈ ch, cleanNode e.2 := by
  induction ch with
  | nil => simp [cleanChildren]
  | cons e rest ih =>
    obtain ⟨k, c⟩ := e
    simp [cleanChildren, ih, List.forall_mem_cons]

mutual
theorem clean_sortNode : ∀ n : SectionNode, cleanNode n → cleanNode (sortTreeChildren n)
  | .node nm p d ic so rs ch => by
    intro hc
    obtain ⟨h1, h2, h3, h4⟩ := hc
    rw [sortTreeChildren]
    refine ⟨h1, h2, ?_, ?_⟩
    · intro r hr
      exact h3 r ((List.perm_insertionSort ruleLe rs).mem_iff.mp hr)
    · rw [cleanChildren_iff]
      intro e he
      have he2 : e ∈ sortChildList ch :=
        (List.perm_insertionSort childLe (sortChildList ch)).mem_iff.mp he
      exact (cleanChildren_iff (sortChildList ch)).mp (clean_sortChildren ch h4) e he2

theorem clean_sortChildren : ∀ ch : List (String × SectionNode),
    cleanChildren ch → cleanChildren (sortChildList ch)
  | [] => fun h => h
  | (k, c) :: rest => by
    intro hc
    obtain ⟨h1, h2⟩ := hc
    rw [sortChildList]
    exact ⟨clean_sortNode c h1, clean_sortChildren rest h2⟩
end

/-- Every physical line of the string has heading level at most `maxD`. -/
def lineOk (maxD : Nat) (l : String) : Prop :=
  ∀ pl ∈ physLines l, leadingHashes pl ≤ maxD

theorem lineOk_empty (maxD : Nat) : lineOk maxD "" := by
  intro pl hpl
  rw [physLines_empty, List.mem_singleton] at hpl
  subst hpl
  simp [leadingHashes]

theorem lineOk_of_cleanStr (maxD : Nat) (s : String) (h : cleanStr s) : lineOk maxD s := by
  intro pl hpl
  rw [h pl hpl]
  exact Nat.zero_le maxD

theorem lineOk_single (maxD : Nat) (s : String) (hnl : '\n' ∉ s.data)
    (hh : leadingHashes s ≤ maxD) : lineOk maxD s := by
  intro pl hpl
  rw [physLines_single s hnl, List.mem_singleton] at hpl
  subst hpl
  exact hh

theorem no_nl_append (a b : String) (ha : '\n' ∉ a.data) (hb : '\n' ∉ b.data) :
    '\n' ∉ (a ++ b).data := by
  intro hm
  rw [String.data_append] at hm
  rcases List.mem_append.mp hm with h | h
  · exact ha h
  · exact hb h

theorem header_leading (t : String) : leadingHashes ("=== " ++ t ++ " ===") = 0 := by
  rw [leadingHashes]
  simp [String.data_append, show ("=== " : String).data = ['=', '=', '=', ' '] from rfl,
    List.takeWhile_cons]

theorem paren_leading (t : String) : leadingHashes ("(" ++ t ++ ")") = 0 := by
  rw [leadingHashes]
  simp [String.data_append, show ("(" : String).data = ['('] from rfl,
    List.takeWhile_cons]

/-- Every line of one rule block stays under any cap: the head line is an
`===` marker, the content is clean by hypothesis, and the rest is blank. -/
theorem ruleBlock_ok (maxD : Nat) (t s : String) (ht : '\n' ∉ t.data) (hs : cleanStr s) :
    ∀ l ∈ ruleBlock t s, lineOk maxD l := by
  intro l hl
  rw [ruleBlock] at hl
  rcases List.mem_append.mp hl with hl1 | hl1
  · rcases List.mem_append.mp hl1 with hl2 | hl2
    · rcases List.mem_cons.mp hl2 with hl3 | hl3
      · subst hl3
        refine lineOk_single maxD _ ?_ ?_
        · exact no_nl_append _ _ (no_nl_append _ _ (by decide) ht) (by decide)
        · rw [header_leading]
          exact Nat.zero_le maxD
      · rw [List.mem_singleton] at hl3
        subst hl3
        exact lineOk_empty maxD
    · split at hl2
      · rw [List.mem_singleton] at hl2
        rw [hl2]
        exact lineOk_of_cleanStr maxD s hs
      · cases hl2
  · rw [List.mem_singleton] at hl1
    subst hl1
    exact lineOk_empty maxD

theorem mem_if_singleton {α : Type} {c : Prop} [Decidable c] {l a : α}
    (h : l ∈ if c then [a] else ([] : List α)) : l = a := by
  split at h
  · exact List.mem_singleton.mp h
  · exact absurd h (List.not_mem_nil l)

mutual
/-- Every line a node contributes respects the cap: headings are emitted
only when `depth + 1 ≤ maxD` and carry exactly `depth + 1` hashes; every
other line starts with `===`, `(`, a clean content line, or is blank. -/
theorem renderNode_cap : ∀ (maxD : Nat) (n : SectionNode), cleanNode n →
    ∀ l ∈ renderNodeLines maxD n, lineOk maxD l
  | maxD, .node nm p d ic so rs ch => by
    intro hc l hl
    obtain ⟨h1, h2, h3, h4⟩ := hc
    simp only [renderNodeLines] at hl
    rcases List.mem_append.mp hl with h5 | h5
    · rcases List.mem_append.mp h5 with h6 | h6
      · split at h6
        · rename_i hA
          rcases List.mem_append.mp h6 with h7 | h7
          · rcases List.mem_cons.mp h7 with h8 | h8
            · rw [h8]
              refine lineOk_single maxD _ (hashes_no_nl (d + 1) nm h1) ?_
              rw [leadingHashes_heading]
              exact hA.2
            · rw [List.mem_singleton] at h8
              rw [h8]
              exact lineOk_empty maxD
          · split at h7
            · rcases List.mem_cons.mp h7 with h8 | h8
              · rw [h8]
                cases hic : ic with
                | none => exact lineOk_empty maxD
                | some s0 =>
                  rw [hic] at h2
                  simp only [cleanText] at h2
                  exact lineOk_of_cleanStr maxD s0 h2
              · rw [List.mem_singleton] at h8
                rw [h8]
                exact lineOk_empty maxD
            · exact absurd h7 (List.not_mem_nil l)
        · split at h6
          · rcases List.mem_append.mp h6 with h7 | h7
            · have h8 := mem_if_singleton h7
              rw [h8]
              refine lineOk_single maxD _ ?_ ?_
              · refine no_nl_append _ ")" ?_ (by decide)
                refine no_nl_append "(" _ (by decide) ?_
                exact titleFromSegments_no_nl _
              · rw [paren_leading]
                exact Nat.zero_le maxD
            · rcases List.mem_cons.mp h7 with h8 | h8
              · rw [h8]
                cases hic : ic with
                | none => exact lineOk_empty maxD
                | some s0 =>
                  rw [hic] at h2
                  simp only [cleanText] at h2
                  exact lineOk_of_cleanStr maxD s0 h2
              · rw [List.mem_singleton] at h8
                rw [h8]
                exact lineOk_empty maxD
          · exact absurd h6 (List.not_mem_nil l)
      · rw [List.mem_flatMap] at h6
        obtain ⟨r, hr, hl2⟩ := h6
        obtain ⟨ht2, hcont⟩ := h3 r hr
        refine ruleBlock_ok maxD _ _ ?_ hcont l hl2
        by_cases hcap : maxD < d + 1
        · rw [if_pos hcap]
          by_cases hlab : titleFromSegments
              (List.drop (maxD - 1) (if p = "" then [] else segsOf p)) ≠ ""
          · rw [if_pos hlab]
            refine no_nl_append _ _ ?_ ht2
            refine no_nl_append _ " — " ?_ (by decide)
            exact titleFromSegments_no_nl _
          · rw [if_neg hlab]
            exact ht2
        · rw [if_neg hcap]
          rw [if_neg (by simp)]
          exact ht2
    · exact renderChildren_cap maxD ch h4 l h5

/-- `renderNode_cap` for every entry of a children list. -/
theorem renderChildren_cap : ∀ (maxD : Nat) (ch : List (String × SectionNode)),
    cleanChildren ch → ∀ l ∈ renderChildrenLines maxD ch, lineOk maxD l
  | maxD, [] => by
    intro _ l hl
    rw [renderChildrenLines] at hl
    exact absurd hl (List.not_mem_nil l)
  | maxD, (k, c) :: rest => by
    intro hc l hl
    obtain ⟨hc1, hc2⟩ := hc
    rw [renderChildrenLines] at hl
    rcases List.mem_append.mp hl with h5 | h5
    · exact renderNode_cap maxD c hc1 l h5
    · exact renderChildren_cap maxD rest hc2 l h5
end

theorem mem_if_list {α : Type} {c : Prop} [Decidable c] {l : α} {xs : List α}
    (h : l ∈ if c then xs else ([] : List α)) : l ∈ xs := by
  split at h
  · exact h
  · exact absurd h (List.not_mem_nil l)

/-- Every line entry `renderTree` pushes respects the clamp. -/
theorem renderLines_cap (root? : Option SectionNode) (title : String) (md : Option Int)
    (hclean : cleanNode (root?.getD defaultRoot)) (htitle : '\n' ∉ title.data) :
    ∀ l ∈ renderLines root? title md, lineOk (clampDepth md) l := by
  intro l hl
  rw [renderLines] at hl
  have hs := clean_sortNode _ hclean
  cases hsn : sortTreeChildren (root?.getD defaultRoot) with
  | node nm p d ic so rs ch =>
    rw [hsn] at hl hs
    dsimp only at hl
    obtain ⟨hs1, hs2, hs3, hs4⟩ := hs
    have hl2 := dropTrailingEmpties_subset _ _ hl
    rcases List.mem_append.mp hl2 with h5 | h5
    · rcases List.mem_append.mp h5 with h6 | h6
      · rcases List.mem_append.mp h6 with h7 | h7
        · simp only [List.mem_cons, List.not_mem_nil, or_false] at h7
          rcases h7 with h8 | h8 | h8 | h8
          · rw [h8]
            refine lineOk_single _ _ (by decide) ?_
            rw [show leadingHashes banner = 0 from by decide]
            exact Nat.zero_le _
          · rw [h8]
            exact lineOk_empty _
          · rw [h8]
            refine lineOk_single _ _ (no_nl_append "# " title (by decide) htitle) ?_
            have h10 : leadingHashes ("# " ++ title) = 1 := by
              rw [leadingHashes, String.data_append,
                show ("# " : String).data = ['#', ' '] from rfl]
              simp [List.takeWhile_cons]
            rw [h10]
            have := (clampDepth_bounds md).1
            omega
          · rw [h8]
            exact lineOk_empty _
        · have h8 := mem_if_list h7
          rcases List.mem_cons.mp h8 with h9 | h9
          · rw [h9]
            cases hi2 : ic with
            | none => exact lineOk_empty _
            | some s0 =>
              rw [hi2] at hs2
              simp only [cleanText] at hs2
              exact lineOk_of_cleanStr _ s0 hs2
          · rw [List.mem_singleton] at h9
            rw [h9]
            exact lineOk_empty _
      · rw [List.mem_flatMap] at h6
        obtain ⟨r, hr, hl3⟩ := h6
        obtain ⟨ht2, hcont⟩ := hs3 r hr
        exact ruleBlock_ok _ _ _ ht2 hcont l hl3
    · exact renderChildren_cap _ ch hs4 l h5

theorem physLines_join : ∀ ls : List String, ls ≠ [] →
    physLines (joinSep "\n" ls) = ls.flatMap physLines := by
  intro ls
  induction ls with
  | nil =>
    intro h
    exact absurd rfl h
  | cons s rest ih =>
    intro _
    cases rest with
    | nil => simp [joinSep]
    | cons b r2 =>
      rw [show joinSep "\n" (s :: b :: r2) = s ++ "\n" ++ joinSep "\n" (b :: r2) from rfl]
      have hd : (s ++ "\n" ++ joinSep "\n" (b :: r2)).data
          = s.data ++ '\n' :: (joinSep "\n" (b :: r2)).data := by
        simp [String.data_append]
      rw [physLines, hd, splitCh_append_sep, List.map_append, List.flatMap_cons,
        ← ih (by simp)]
      rfl

/-- The rendered document's physical lines all respect the clamp. -/
theorem renderTree_cap (root? : Option SectionNode) (title : String) (md : Option Int)
    (hclean : cleanNode (root?.getD defaultRoot)) (htitle : '\n' ∉ title.data) :
    ∀ pl ∈ physLines (renderTree root? title md), leadingHashes pl ≤ clampDepth md := by
  intro pl hpl
  rw [renderTree] at hpl
  have hd : (joinSep "\n" (renderLines root? title md) ++ "\n").data
      = (joinSep "\n" (renderLines root? title md)).data ++ '\n' :: [] := by
    simp [String.data_append]
  rw [physLines, hd, splitCh_append_sep, List.map_append] at hpl
  rcases List.mem_append.mp hpl with h1 | h1
  · have h2 : pl ∈ physLines (joinSep "\n" (renderLines root? title md)) := h1
    by_cases hne : renderLines root? title md = []
    · rw [hne, show joinSep "\n" ([] : List String) = "" from rfl, physLines_empty,
        List.mem_singleton] at h2
      rw [h2]
      simp [leadingHashes]
    · rw [physLines_join _ hne, List.mem_flatMap] at h2
      obtain ⟨l, hlmem, hpl2⟩ := h2
      exact renderLines_cap root? title md hclean htitle l hlmem pl hpl2
  · have h2 : pl ∈ physLines "" := h1
    rw [physLines_empty, List.mem_singleton] at h2
    rw [h2]
    simp [leadingHashes]

/-- Claim C2: for any tree and `maxHeadingDepth` option (clamped into
`[2,6]`, default `4`), no physical line of the rendered output is a
Markdown heading of level above the clamp (given the builder-guaranteed
sanity of names, titles and contents); and a folder node whose heading
level `depth + 1` exceeds the clamp contributes, besides its rule blocks
and children, only non-heading lines — with each rule title prefixed by
the title-cased path segments from the cap point onward joined by
`' / '` and an em-dash, whenever that label is non-empty. -/
theorem C2_heading_depth_cap (root? : Option SectionNode) (title : String) (md : Option Int)
    (hclean : cleanNode (root?.getD defaultRoot)) (htitle : '\n' ∉ title.data) :
    (∀ pl ∈ physLines (renderTree root? title md), leadingHashes pl ≤ clampDepth md)
      ∧ (∀ nm p d ic so rs ch, clampDepth md < d + 1 → cleanText ic →
          ∃ own, renderNodeLines (clampDepth md) (.node nm p d ic so rs ch)
              = own
                ++ rs.flatMap (fun r => ruleBlock
                    (if titleFromSegments ((if p = "" then [] else segsOf p).drop
                          (clampDepth md - 1)) ≠ ""
                     then titleFromSegments ((if p = "" then [] else segsOf p).drop
                          (clampDepth md - 1)) ++ " — " ++ r.title
                     else r.title) r.content)
                ++ renderChildrenLines (clampDepth md) ch
            ∧ ∀ l ∈ own, ∀ pl ∈ physLines l, leadingHashes pl = 0) := by
  constructor
  · exact renderTree_cap root? title md hclean htitle
  · intro nm p d ic so rs ch hcap hic
    have hrw : (if clampDepth md < d + 1
        then titleFromSegments ((if p = "" then [] else segsOf p).drop (clampDepth md - 1))
        else "")
      = titleFromSegments ((if p = "" then [] else segsOf p).drop (clampDepth md - 1)) :=
      if_pos hcap
    have hng : ¬(0 < d ∧ d + 1 ≤ clampDepth md) := by omega
    by_cases hht : hasText ic = true
    · refine ⟨(if titleFromSegments ((if p = "" then [] else segsOf p).drop
            (clampDepth md - 1)) ≠ ""
          then ["(" ++ titleFromSegments ((if p = "" then [] else segsOf p).drop
            (clampDepth md - 1)) ++ ")"]
          else []) ++ [ic.getD "", ""], ?_, ?_⟩
      · simp only [renderNodeLines, hrw]
        rw [if_neg hng, if_pos ⟨hcap, hht⟩]
      · intro l hl
        rcases List.mem_append.mp hl with h1 | h1
        · have h2 := mem_if_singleton h1
          rw [h2]
          intro pl hpl
          rw [physLines_single _ (no_nl_append _ ")" (no_nl_append "(" _ (by decide)
              (titleFromSegments_no_nl _)) (by decide)), List.mem_singleton] at hpl
          rw [hpl]
          exact paren_leading _
        · rcases List.mem_cons.mp h1 with h2 | h2
          · rw [h2]
            cases hi2 : ic with
            | none =>
              intro pl hpl
              rw [show physLines ((none : Option String).getD "") = [""] from rfl,
                List.mem_singleton] at hpl
              rw [hpl]
              rfl
            | some s0 =>
              rw [hi2] at hic
              simp only [cleanText] at hic
              exact hic
          · rw [List.mem_singleton] at h2
            rw [h2]
            intro pl hpl
            rw [physLines_empty, List.mem_singleton] at hpl
            rw [hpl]
            rfl
    · refine ⟨[], ?_, ?_⟩
      · simp only [renderNodeLines, hrw]
        rw [if_neg hng, if_neg (fun hc => hht hc.2), List.nil_append]
      · intro l hl
        exact absurd hl (List.not_mem_nil l)

theorem C2_heading_depth_cap_witness :
    leadingHashes "# T" ≤ clampDepth none :=
  (C2_heading_depth_cap none "T" none
    (by
      refine ⟨by decide, trivial, ?_, trivial⟩
      intro r hr
      exact absurd hr (List.not_mem_nil r))
    (by decide)).1 "# T" (by decide)
